import Mathlib

/-! camlistore: pkg/fileembed and the schema file reader

A shallow embedding of `pkg/fileembed/fileembed.go` (the in-memory static file
set and its seekable handle) and of the virtual stream reader and chunking
writer exercised by `pkg/schema/fileread_test.go`. The definitions of both
packages come first, the lemmas and the theorems on the claims after them.

Conventions of the embedding

* a Go `string` and a Go `[]byte` are both `List UInt8`;
* an `int64` is an `Int`; every `int64` addition of the source is followed by
  `wrapInt64`, the two's complement reduction into `[-2^63, 2^63)`;
* a Go run-time panic (slice bounds out of range, nil dereference) is the
  `none` of an `Option`;
* a Go `error` result is an `Option Error` (`none` is `nil`);
* pointers to `staticFile` are values: no code path mutates a `staticFile`
  after it is built;
* `log.Printf` output and the mutex `lk` are not modelled.
-/

namespace fileembed

/-- A Go string or byte slice. -/
abbrev Bytes := List UInt8

/-- The value of `time.Time`, kept abstract as a number. -/
abbrev Time := Int

/-- The error values the package returns or passes on. -/
inductive Error where
  | EOF
  | ErrInvalid
  | ErrNotExist
  | notDirectory
  | couldNotOpenZlib (cause : Error)
  | other (code : Nat)
  deriving DecidableEq, Repr

/-- Two's complement reduction of an integer into the `int64` range. -/
def wrapInt64 (x : Int) : Int :=
  (x + 2 ^ 63) % 2 ^ 64 - 2 ^ 63

/-- The `os.SEEK_SET` constant. -/
def SEEK_SET : Int := 0

/-- The `os.SEEK_CUR` constant. -/
def SEEK_CUR : Int := 1

/-- The `os.SEEK_END` constant. -/
def SEEK_END : Int := 2

/-- The `staticFile` struct. -/
structure staticFile where
  name : Bytes
  contents : Bytes
  modtime : Time
  deriving DecidableEq, Repr

/-- The method `staticFile.Name`. -/
def staticFile.Name (f : staticFile) : Bytes := f.name

/-- The method `staticFile.Size`: `int64(len(f.contents))`. -/
def staticFile.Size (f : staticFile) : Int := wrapInt64 (Int.ofNat f.contents.length)

/-- The method `staticFile.Mode`: the constant `0444`. -/
def staticFile.Mode (_f : staticFile) : Nat := 0o444

/-- The method `staticFile.ModTime`. -/
def staticFile.ModTime (f : staticFile) : Time := f.modtime

/-- The method `staticFile.IsDir`. -/
def staticFile.IsDir (_f : staticFile) : Bool := false

/-- The `fileHandle` struct. -/
structure fileHandle where
  sf : staticFile
  off : Int
  closed : Bool
  deriving DecidableEq, Repr

/-- The method `fileHandle.Close`: the error returned and the handle after. -/
def fileHandle.Close (f : fileHandle) : Option Error × fileHandle :=
  if f.closed then (some Error.ErrInvalid, f)
  else (none, { f with closed := true })

/-- The slice expression `s[i:]` for an `int64` index: `none` is the run-time
panic for an index outside `0 ..= len(s)`. -/
def sliceFrom (s : Bytes) (i : Int) : Option Bytes :=
  if 0 ≤ i ∧ i ≤ Int.ofNat s.length then some (s.drop i.toNat) else none

/-- The builtin `copy(dst, src)`: the number of bytes copied and `dst` after. -/
def copy (dst src : Bytes) : Nat × Bytes :=
  let n := min dst.length src.length
  (n, src.take n ++ dst.drop n)

/-- What one `Read` call leaves: the count and error returned, the caller's
buffer and the handle after the call. -/
structure ReadResult where
  n : Nat
  err : Option Error
  p : Bytes
  f : fileHandle
  deriving DecidableEq, Repr

/-- The method `fileHandle.Read`; `none` is a run-time panic. -/
def fileHandle.Read (f : fileHandle) (p : Bytes) : Option ReadResult :=
  if f.off ≥ wrapInt64 (Int.ofNat f.sf.contents.length) then
    some { n := 0, err := some Error.EOF, p := p, f := f }
  else
    match sliceFrom f.sf.contents f.off with
    | none => none
    | some src =>
      let c := copy p src
      some { n := c.1, err := none, p := c.2,
             f := { f with off := wrapInt64 (f.off + Int.ofNat c.1) } }

/-- The method `fileHandle.Readdir`. -/
def fileHandle.Readdir (_f : fileHandle) (_n : Int) : Option Error :=
  some Error.notDirectory

/-- The method `fileHandle.Seek`: the offset and error returned, and the handle
after the call. `offset` is an `int64` and `whence` an `int`. -/
def fileHandle.Seek (f : fileHandle) (offset : Int) (whence : Int) :
    (Int × Option Error) × fileHandle :=
  let moved : Option Int :=
    if whence = SEEK_SET then some offset
    else if whence = SEEK_CUR then some (wrapInt64 (f.off + offset))
    else if whence = SEEK_END then some (wrapInt64 (f.sf.Size + offset))
    else none
  match moved with
  | none => ((0, some Error.ErrInvalid), f)
  | some o =>
    let o2 := if o < 0 then 0 else o
    ((o2, none), { f with off := o2 })

/-- The method `fileHandle.Stat`. -/
def fileHandle.Stat (f : fileHandle) : staticFile × Option Error := (f.sf, none)

/-- An `io.Reader`, given as the results of its successive `Read` calls: some
bytes and more to come, the end of the stream, or an error. -/
inductive Reader where
  | eof
  | data (chunk : Bytes) (rest : Reader)
  | fail (e : Error)
  deriving DecidableEq, Repr

/-- The function `ioutil.ReadAll`: everything up to the end of the stream, or
the first error other than `io.EOF`. -/
def ReadAll : Reader → Except Error Bytes
  | .eof => .ok []
  | .data chunk rest =>
    match ReadAll rest with
    | .ok bs => .ok (chunk ++ bs)
    | .error e => .error e
  | .fail e => if e = Error.EOF then .ok [] else .error e

/-- The function `strings.NewReader`. -/
def stringsNewReader (s : Bytes) : Reader :=
  if s = [] then .eof else .data s .eof

/-- An `*os.File` as far as this package uses it: what `ioutil.ReadAll` gives
on it and what `Stat().ModTime()` gives (or the error of `Stat`). -/
structure DiskFile where
  readAll : Except Error Bytes
  stat : Except Error Time

/-- The standard library and operating system calls the package makes, taken
as parameters: `os.Getenv`, `filepath.Join`, `os.Open` and `zlib.NewReader`. -/
structure World where
  getenv : Bytes → Bytes
  join : Bytes → Bytes → Bytes
  osOpen : Bytes → Except Error DiskFile
  zlibNewReader : Bytes → Except Error Reader

/-- The method `String.Open`. -/
def String.Open (s : Bytes) : Except Error Reader :=
  .ok (stringsNewReader s)

/-- The method `ZlibCompressed.Open`. -/
def ZlibCompressed.Open (w : World) (zb : Bytes) : Except Error Reader :=
  match w.zlibNewReader zb with
  | .error err => .error (Error.couldNotOpenZlib err)
  | .ok rz => .ok rz

/-- The `Opener` interface: the two implementations of the package, and any
other implementation, given by what its `Open` returns. -/
inductive Opener where
  | String (s : Bytes)
  | ZlibCompressed (zb : Bytes)
  | custom (result : Except Error Reader)

/-- The interface call `o.Open()`. -/
def Opener.Open (w : World) : Opener → Except Error Reader
  | .String s => String.Open s
  | .ZlibCompressed zb => ZlibCompressed.Open w zb
  | .custom result => result

/-- The `Files` struct. The map `file` is an association list with at most one
entry per key; the nil map is the empty list. -/
structure Files where
  OverrideEnv : Bytes
  DirFallback : Bytes
  SlurpToMemory : Bool
  file : List (Bytes × staticFile)

/-- The map index expression `f.file[filename]` with its `ok` flag. -/
def Files.lookup (f : Files) (filename : Bytes) : Option staticFile :=
  f.file.lookup filename

/-- The method `Files.add`: `f.file[filename] = sf`. -/
def Files.add (f : Files) (filename : Bytes) (sf : staticFile) : Files :=
  { f with file := (filename, sf) :: f.file.filter (fun e => e.1 ≠ filename) }

/-- The method `Files.Add`. The argument `size` is not used by the source. -/
def Files.Add (w : World) (f : Files) (filename : Bytes) (_size : Int) (o : Opener)
    (modtime : Time) : Files :=
  match o.Open w with
  | .error _ => f
  | .ok r =>
    match ReadAll r with
    | .error _ => f
    | .ok contents =>
      f.add filename { name := filename, contents := contents, modtime := modtime }

/-- An `http.File` as `Files.Open` returns it: a handle on an in-memory file
or a file of the operating system. -/
inductive File where
  | handle (h : fileHandle)
  | disk (d : DiskFile)

/-- The method `Files.openFallback`: the result and the `Files` after the
call; `none` is the nil dereference when `Stat` fails on a slurped file. -/
def Files.openFallback (w : World) (f : Files) (filename : Bytes) :
    Option (Except Error File × Files) :=
  if f.DirFallback = [] then some (.error Error.ErrNotExist, f)
  else
    match w.osOpen (w.join f.DirFallback filename) with
    | .error err => some (.error err, f)
    | .ok of =>
      if f.SlurpToMemory then
        match of.readAll with
        | .error err => some (.error err, f)
        | .ok bs =>
          match of.stat with
          | .error _ => none
          | .ok mt =>
            let sf : staticFile := { name := filename, contents := bs, modtime := mt }
            some (.ok (.handle { sf := sf, off := 0, closed := false }), f.add filename sf)
      else some (.ok (.disk of), f)

/-- The method `Files.Open`: the result and the `Files` after the call. -/
def Files.Open (w : World) (f : Files) (filename : Bytes) :
    Option (Except Error File × Files) :=
  let filename := if filename.head? = some 47 then filename.drop 1 else filename
  if f.OverrideEnv ≠ [] ∧ w.getenv f.OverrideEnv ≠ [] then
    let diskPath := w.join (w.getenv f.OverrideEnv) filename
    match w.osOpen diskPath with
    | .error err => some (.error err, f)
    | .ok d => some (.ok (.disk d), f)
  else
    match f.lookup filename with
    | none => f.openFallback w filename
    | some sf => some (.ok (.handle { sf := sf, off := 0, closed := false }), f)

/-- What a read loop leaves: the bytes each successful `Read` returned, the
error that ended the loop and the handle after it. -/
structure LoopResult where
  chunks : List Bytes
  err : Error
  f : fileHandle
  deriving DecidableEq, Repr

/-- Calling `Read` with the buffers `bufs i`, `bufs (i+1)`, ... until it
returns an error. `none` is a panic, or `fuel` calls made without an error. -/
def readUntilEOF (bufs : Nat → Bytes) : Nat → Nat → fileHandle → Option LoopResult
  | 0, _, _ => none
  | fuel + 1, i, f =>
    match f.Read (bufs i) with
    | none => none
    | some r =>
      match r.err with
      | some e => some { chunks := [], err := e, f := r.f }
      | none =>
        match readUntilEOF bufs fuel (i + 1) r.f with
        | none => none
        | some rest => some { rest with chunks := r.p.take r.n :: rest.chunks }

/-- One call on a handle. -/
inductive Call where
  | Read (p : Bytes)
  | Seek (offset : Int) (whence : Int)
  | Close
  deriving DecidableEq, Repr

/-- The handle after one call; `none` is a panic. -/
def fileHandle.step (f : fileHandle) : Call → Option fileHandle
  | .Read p => (f.Read p).map (fun r => r.f)
  | .Seek offset whence => some (f.Seek offset whence).2
  | .Close => some f.Close.2

/-- The handle after a sequence of calls; `none` is a panic. -/
def fileHandle.run (f : fileHandle) : List Call → Option fileHandle
  | [] => some f
  | c :: cs =>
    match f.step c with
    | none => none
    | some g => g.run cs

/-- A `Files` value with nothing in it and no override or fallback. -/
def emptyFiles : Files :=
  { OverrideEnv := [], DirFallback := [], SlurpToMemory := false, file := [] }

/-- A `World` with no environment variables, no files on disk and a zlib that
rejects every input. -/
def bareWorld : World :=
  { getenv := fun _ => [], join := fun a b => a ++ [47] ++ b,
    osOpen := fun _ => .error Error.ErrNotExist,
    zlibNewReader := fun _ => .error (Error.other 0) }

/-- A file set with the one entry `a` of content 1, 2, 3. -/
def oneFile : Files :=
  { emptyFiles with file := [([97], { name := [97], contents := [1, 2, 3], modtime := 0 })] }

/-- The base of a seek as the specification words it: 0 for `SEEK_SET`, the
cursor for `SEEK_CUR`, the content length for `SEEK_END`. -/
def seekBase (f : fileHandle) (whence : Int) : Int :=
  if whence = SEEK_SET then 0
  else if whence = SEEK_CUR then f.off
  else Int.ofNat f.sf.contents.length

/-- A file name with at most one leading `/` removed. -/
def strippedName : Bytes → Bytes
  | [] => []
  | c :: rest => if c = 47 then rest else c :: rest

/-- A handle whose cursor is the largest `int64`. -/
def overflowHandle : fileHandle :=
  { sf := { name := [], contents := [], modtime := 0 }, off := 2 ^ 63 - 1, closed := false }

end fileembed

/-! The schema reader and writer

`pkg/schema/fileread_test.go` exercises `NewFileReader`, `FileReader.Seek`,
`FileReader.Read` and `WriteFileMap`, whose code is not among the sources.
They are modelled from the specification (sections 3, 4 and 6); the helpers
and the table of the test file itself (`part`, `all`, `zero`, `sizeSum`,
`filePart`, `skipBytes`, `readTests`, `TestReader`) are translated from it, and
`TestReader_passes` checks the modelled reader against every row of the table.
-/

namespace schema

/-- A Go string or byte slice. -/
abbrev Bytes := List UInt8

/-- Modelled from the spec: the Blob Reference of section 3, an opaque content
address compared structurally. Package `blobref` is not among the sources. -/
structure BlobRef where
  digest : Bytes
  deriving DecidableEq, Repr

/-- Modelled from the spec: the Part of section 3, with the field names of the
`BytesPart` literals in `fileread_test.go`; the struct declaration is not
among the sources. `Size` and `Offset` are `uint64` there and unbounded
naturals here. -/
structure BytesPart where
  BlobRef : Option schema.BlobRef
  BytesRef : Option schema.BlobRef
  Size : Nat
  Offset : Nat
  deriving DecidableEq, Repr

/-- Modelled from the spec: the two document types of section 3. -/
inductive DocType where
  | file
  | bytes
  deriving DecidableEq, Repr

/-- Modelled from the spec: the Composition Document of section 3 (the
`superset` struct of the test file, whose declaration is not among the
sources). `camliType` is its `Type` field and `Size` its total size. -/
structure superset where
  camliType : DocType
  Version : Nat
  Name : Option Bytes
  Parts : List BytesPart
  Size : Nat
  deriving DecidableEq, Repr

/-- Modelled from the spec: the error taxonomy of section 7.
`RecursionLimitExceeded` is the defensive cap that section 9 advises; the
reader of section 4.2 recurses to arbitrary depth and never returns it. -/
inductive Error where
  | SchemaDecodeError
  | SizeMismatch
  | AmbiguousPart
  | BlobNotFound
  | IOError
  | RecursionLimitExceeded
  deriving DecidableEq, Repr

/-- The function `sizeSum` of `fileread_test.go`. -/
def sizeSum : List BytesPart → Nat
  | [] => 0
  | p :: ps => p.Size + sizeSum ps

/-- The function `zero` of `fileread_test.go`. -/
def zero (size : Nat) : BytesPart :=
  { BlobRef := none, BytesRef := none, Size := size, Offset := 0 }

/-- The function `part` of `fileread_test.go`, given the reference of the
blob. -/
def part (ref : BlobRef) (offset size : Nat) : BytesPart :=
  { BlobRef := some ref, BytesRef := none, Size := size, Offset := offset }

/-- Modelled from the spec: the validation of `populate` and `deserialize` in
section 4.1: the part sizes add up to the declared total and no part sets both
references. -/
def superset.validate (ss : superset) : Except Error superset :=
  if sizeSum ss.Parts ≠ ss.Size then .error Error.SizeMismatch
  else if ss.Parts.any (fun p => p.BlobRef.isSome && p.BytesRef.isSome) then
    .error Error.AmbiguousPart
  else .ok ss

/-- Modelled from the spec: `populate(totalSize, parts)` of section 4.1, the
`PopulateParts` method the test file calls. -/
def superset.PopulateParts (m : superset) (size : Nat) (parts : List BytesPart) :
    Except Error superset :=
  superset.validate { m with Parts := parts, Size := size }

/-- Modelled from the spec: an empty "file" document of version 1, as
`TestReader` builds it and as `NewFileMap(name)` names it. -/
def NewFileMap (name : Option Bytes) : superset :=
  { camliType := DocType.file, Version := 1, Name := name, Parts := [], Size := 0 }

/-- Modelled from the spec: an empty "bytes" document, the `newBytes` of the
test file. -/
def newBytes : superset :=
  { camliType := DocType.bytes, Version := 1, Name := none, Parts := [], Size := 0 }

/-- Modelled from the spec: the collaborators of the reader in section 6, the
fetch function (a miss is `BlobNotFound`, a fault `IOError`) and the decoder
of serialized documents (`none` on malformed input). The spec does not say
what a read returns when the referent of a part ends before the bytes the part
names; `short` stands for whatever the reader does then, given the part, the
local offset and the number of bytes wanted, and is left open. -/
structure Env where
  fetch : BlobRef → Except Error Bytes
  decode : Bytes → Option superset
  short : BytesPart → Nat → Nat → Except Error Bytes

/-- Modelled from the spec: `deserialize(bytes)` of section 4.1, which
re-validates what `populate` validates. -/
def Env.deserialize (env : Env) (bs : Bytes) : Except Error superset :=
  match env.decode bs with
  | none => .error Error.SchemaDecodeError
  | some ss => ss.validate

/-- Modelled from the spec: the prefix-sum array over part sizes that `open`
computes in section 4.2: entry `i` is the stream offset where part `i` starts
and the last entry is the total size. -/
def prefixSums : Nat → List BytesPart → List Nat
  | acc, [] => [acc]
  | acc, p :: ps => acc :: prefixSums (acc + p.Size) ps

/-- Modelled from the spec: the binary search of section 4.2 over the prefix
sums, between the indices `lo` and `hi`. -/
def searchSums (sums : List Nat) (c : Nat) : Nat → Nat → Nat → Nat
  | 0, lo, _ => lo
  | fuel + 1, lo, hi =>
    if hi ≤ lo + 1 then lo
    else
      let mid := (lo + hi) / 2
      if sums.getD mid 0 ≤ c then searchSums sums c fuel mid hi
      else searchSums sums c fuel lo mid

/-- Modelled from the spec: the index of the part that owns stream offset
`c`, found by binary search over the whole prefix-sum array. -/
def locate (sums : List Nat) (c : Nat) : Nat :=
  searchSums sums c sums.length 0 (sums.length - 1)

/-- Modelled from the spec: the state of the Virtual Stream Reader of section
4.2 (the `FileReader` of the test file): the document, its prefix sums, the
total size and the cursor. The caches of fetched blobs and of nested readers
are left out: the fetch function is pure, so a cached value is the fetched
one; with no cache to release, `close()` has nothing to do and is left out
too. -/
structure FileReader where
  ss : superset
  sums : List Nat
  size : Nat
  cursor : Nat
  deriving DecidableEq, Repr

/-- Modelled from the spec: the reader over a document at hand, as in
`ss.NewFileReader(fetcher)` of `TestReader`. That test fills in the type, the
version and the parts only and expects a reader, so the size of the reader is
the sum of the part sizes and no declared total is compared with it here (the
comparison belongs to `populate` and `deserialize`); a part with both
references is a structural error of the root document and surfaces here. -/
def superset.NewFileReader (ss : superset) : Except Error FileReader :=
  if ss.Parts.any (fun p => p.BlobRef.isSome && p.BytesRef.isSome) then
    .error Error.AmbiguousPart
  else
    .ok { ss := ss, sums := prefixSums 0 ss.Parts, size := sizeSum ss.Parts, cursor := 0 }

/-- Modelled from the spec: `open(fetchFn, rootRef)` of section 4.2, the
`NewFileReader(fetcher, ref)` of `TestReaderSeekStress`. -/
def NewFileReader (env : Env) (ref : BlobRef) : Except Error FileReader :=
  match env.fetch ref with
  | .error e => .error e
  | .ok bs =>
    match env.deserialize bs with
    | .error e => .error e
    | .ok ss => ss.NewFileReader

/-- The reader on a valid document with its cursor at `c`. -/
def readerAt (ss : superset) (c : Nat) : FileReader :=
  { ss := ss, sums := prefixSums 0 ss.Parts, size := sizeSum ss.Parts, cursor := c }

/-- Modelled from the spec: the seek modes of section 4.2. -/
inductive SeekMode where
  | fromStart
  | fromCurrent
  | fromEnd
  deriving DecidableEq, Repr

/-- Modelled from the spec: `seek(delta, mode)` of section 4.2: the new
absolute offset, a negative one clamped to 0 and one beyond the total size
kept; no fetch is made. -/
def FileReader.Seek (fr : FileReader) (delta : Int) (mode : SeekMode) : Nat × FileReader :=
  let base : Int :=
    match mode with
    | .fromStart => 0
    | .fromCurrent => Int.ofNat fr.cursor
    | .fromEnd => Int.ofNat fr.size
  let target : Int := base + delta
  let off : Nat := if target < 0 then 0 else target.toNat
  (off, { fr with cursor := off })

/-- What one `read` call returns: the bytes copied into the buffer, the
end-of-stream signal and the reader after the call. -/
structure ReadOut where
  data : Bytes
  eof : Bool
  fr : FileReader
  deriving DecidableEq, Repr

/-- Modelled from the spec: a raw-blob part of section 4.2: bytes
`[offset+local, offset+local+want)` of the fetched blob; when the blob ends
before them, what `short` says. -/
def readBlobPart (env : Env) (b : BlobRef) (p : BytesPart) (loc want : Nat) :
    Except Error Bytes :=
  match env.fetch b with
  | .error e => .error e
  | .ok blob =>
    if p.Offset + loc + want ≤ blob.length then .ok ((blob.drop (p.Offset + loc)).take want)
    else env.short p loc want

/-- Modelled from the spec: what `read` does with the part `p` that owns the
cursor, in section 4.2, `loc` bytes into the part and for `want` bytes: a
raw-blob part is cut from the fetched blob, a zero-fill part is synthesized,
and for a nested part a reader is opened on `bytesRef`, sought to
`offset + local` and read with `sub`, the `read` of the level below; when the
nested stream has ended there, what `short` says. `none`: the level below ran
out of fuel. -/
def readPart (env : Env) (sub : FileReader → Nat → Option (Except Error ReadOut))
    (p : BytesPart) (loc want : Nat) : Option (Except Error Bytes) :=
  match p.BlobRef, p.BytesRef with
  | some _, some _ => some (.error Error.AmbiguousPart)
  | some b, none => some (readBlobPart env b p loc want)
  | none, none => some (.ok (List.replicate want 0))
  | none, some b =>
    match NewFileReader env b with
    | .error e => some (.error e)
    | .ok nested =>
      match sub (nested.Seek (Int.ofNat (p.Offset + loc)) SeekMode.fromStart).2 want with
      | none => none
      | some (.error e) => some (.error e)
      | some (.ok out) =>
        if out.eof = true ∧ 0 < want then some (env.short p loc want) else some (.ok out.data)

/-- Modelled from the spec: `read(buffer)` of section 4.2 for a buffer of `n`
bytes: the end-of-stream signal once the cursor is at or past the total size;
otherwise the owning part and the local offset are located in the prefix sums
and at most `n` bytes, clipped to the rest of that part, are read from it and
the cursor advances by their number. The reader of section 4.2 recurses into
nested documents to arbitrary depth; the first argument is the fuel of that
recursion, the number of document levels that may be entered, the root
included, and `none` is the fuel running out (not an error of the reader). -/
def FileReader.Read (env : Env) : Nat → FileReader → Nat → Option (Except Error ReadOut)
  | depth, fr, n =>
    if fr.size ≤ fr.cursor then some (.ok { data := [], eof := true, fr := fr })
    else
      match depth with
      | 0 => none
      | d + 1 =>
        let i := locate fr.sums fr.cursor
        match fr.ss.Parts[i]? with
        | none => some (.error Error.IOError)
        | some p =>
          let loc := fr.cursor - fr.sums.getD i 0
          let want := min n (p.Size - loc)
          match readPart env (FileReader.Read env d) p loc want with
          | none => none
          | some (.error e) => some (.error e)
          | some (.ok data) =>
            some (.ok { data := data, eof := false,
                        fr := { fr with cursor := fr.cursor + data.length } })

/-- Reading to the end as `ioutil.ReadAll` does: `Read` is called with buffers
of `bufLen i`, `bufLen (i+1)`, ... bytes until it signals the end of the
stream or fails. `none`: the fuel of a read ran out, or `fuel` calls were made
without reaching the end. -/
def FileReader.ReadAll (env : Env) (depth : Nat) (bufLen : Nat → Nat) :
    Nat → Nat → FileReader → Option (Except Error Bytes)
  | 0, _, _ => none
  | fuel + 1, i, fr =>
    match fr.Read env depth (bufLen i) with
    | none => none
    | some (.error e) => some (.error e)
    | some (.ok out) =>
      if out.eof then some (.ok [])
      else
        match FileReader.ReadAll env depth bufLen fuel (i + 1) out.fr with
        | none => none
        | some (.error e) => some (.error e)
        | some (.ok rest) => some (.ok (out.data ++ rest))

/-- The concatenation of the spans of a list of parts, when each has one. -/
def spans (span : BytesPart → Option Bytes) : List BytesPart → Option Bytes
  | [] => some []
  | p :: ps =>
    match span p, spans span ps with
    | some a, some b => some (a ++ b)
    | _, _ => none

/-- Modelled from the spec: the resolved span of a Part in section 3: for a
`blobRef` part bytes `[offset, offset+size)` of the raw blob, for a part with
neither reference `size` zero bytes, for a `bytesRef` part bytes
`[offset, offset+size)` of the stream of the nested document. `none` when the
part has no such span: both references set, a referent that is missing, does
not decode or validate, or is shorter than `offset+size`, or documents nested
deeper than the first argument. -/
def partSpan (env : Env) : Nat → BytesPart → Option Bytes
  | 0, _ => none
  | d + 1, p =>
    match p.BlobRef, p.BytesRef with
    | some _, some _ => none
    | some b, none =>
      match env.fetch b with
      | .error _ => none
      | .ok blob =>
        if p.Offset + p.Size ≤ blob.length then some ((blob.drop p.Offset).take p.Size)
        else none
    | none, none => some (List.replicate p.Size 0)
    | none, some b =>
      match env.fetch b with
      | .error _ => none
      | .ok bs =>
        match env.deserialize bs with
        | .error _ => none
        | .ok ss =>
          match spans (partSpan env d) ss.Parts with
          | none => none
          | some s =>
            if p.Offset + p.Size ≤ s.length then some ((s.drop p.Offset).take p.Size)
            else none

/-- Modelled from the spec: the Virtual Stream of section 3, the spans of the
parts of the document put together in list order. -/
def virtualStream (env : Env) (depth : Nat) (ss : superset) : Option Bytes :=
  spans (partSpan env depth) ss.Parts

/-- What the read of one level must do for the level above to be right. -/
def ReadsStream (env : Env) (d : Nat)
    (sub : FileReader → Nat → Option (Except Error ReadOut)) : Prop :=
  ∀ (ss : superset) (s : Bytes) (c n : Nat), virtualStream env d ss = some s →
    c < s.length → 1 ≤ n →
    ∃ data, sub (readerAt ss c) n =
        some (.ok { data := data, eof := false, fr := readerAt ss (c + data.length) }) ∧
      1 ≤ data.length ∧ data.length ≤ n ∧ data = (s.drop c).take data.length

/-- Modelled from the spec: the store of section 6 as the in-memory
`test.Fetcher` of the test file: the blobs added, the newest first, under the
reference they were added with. -/
structure Store where
  blobs : List (BlobRef × Bytes)
  deriving DecidableEq, Repr

/-- Modelled from the spec: the content addressing, the canonical
serialization and the decoding of documents that the test fetcher and the
schema package supply (sections 4.1 and 6). They are parameters: neither the
hash nor the JSON code is among the sources. -/
structure Codec where
  hash : Bytes → BlobRef
  encode : superset → Bytes
  decode : Bytes → Option superset

/-- Modelled from the spec: `put(bytes) -> BlobRef` of section 6, the
`AddBlob` of the test fetcher: the blob is stored under the hash of its
content. -/
def Store.put (c : Codec) (s : Store) (b : Bytes) : Store × BlobRef :=
  ({ blobs := (c.hash b, b) :: s.blobs }, c.hash b)

/-- Modelled from the spec: the `BlobContents` lookup of the test fetcher. -/
def Store.BlobContents (s : Store) (ref : BlobRef) : Option Bytes :=
  s.blobs.lookup ref

/-- Modelled from the spec: `fetch(blobRef)` of section 6 on the in-memory
store. -/
def Store.Fetch (s : Store) (ref : BlobRef) : Except Error Bytes :=
  match s.BlobContents ref with
  | none => .error Error.BlobNotFound
  | some b => .ok b

/-- The reader collaborators that the test fetcher and a codec make up; no
part of the test table outruns its referent, and `short` is set to fail. -/
def Store.env (c : Codec) (s : Store) : Env :=
  { fetch := s.Fetch, decode := c.decode, short := fun _ _ _ => .error Error.IOError }

/-- Modelled from the spec: the store collaborator at its boundary (section
6), over any type of store states: `put(bytes) -> BlobRef`, where the store
assigns the reference, and `fetch(blobRef)`. -/
structure BlobStore (σ : Type) where
  put : σ → Bytes → σ × BlobRef
  fetch : σ → BlobRef → Except Error Bytes

/-- Modelled from the spec: blobs are immutable (sections 3 and 6): the
reference that `put` returns fetches the bytes put, and what a reference
fetches is the same after any later `put`. -/
def BlobStore.Immutable {σ : Type} (st : BlobStore σ) : Prop :=
  (∀ s b, st.fetch (st.put s b).1 (st.put s b).2 = .ok b) ∧
  (∀ s b r x, st.fetch s r = .ok x → st.fetch (st.put s b).1 r = .ok x)

/-- The reader collaborators over a state of a store. -/
def BlobStore.env {σ : Type} (st : BlobStore σ) (decode : Bytes → Option superset)
    (short : BytesPart → Nat → Nat → Except Error Bytes) (s : σ) : Env :=
  { fetch := st.fetch s, decode := decode, short := short }

/-- The function `filePart` of `fileread_test.go`: a "bytes" document made of
the parts `cps` is serialized and added to the store, and the part returned
references it from offset `skip` on. `none` is the panic on a `PopulateParts`
error. The subtraction is a `uint64` one. -/
def filePart (c : Codec) (s : Store) (cps : List BytesPart) (skip : Nat) :
    Option (Store × BytesPart) :=
  let fileSize := sizeSum cps
  match newBytes.PopulateParts fileSize cps with
  | .error _ => none
  | .ok m =>
    let added := s.put c (c.encode m)
    some (added.1,
      { BlobRef := none, BytesRef := some added.2,
        Size := (fileSize + 2 ^ 64 - skip % 2 ^ 64) % 2 ^ 64, Offset := skip })

/-- Modelled from the spec: the pluggable chunk-boundary policy of section
4.3: `cut` gives the length of the next chunk from the bytes not yet consumed
(a deterministic function of content) and `maxChunk` bounds the chunk size. -/
structure ChunkPolicy where
  cut : Bytes → Nat
  maxChunk : Nat

/-- The length of the next chunk: what the policy says, kept within
`1 ..= maxChunk`. -/
def ChunkPolicy.next (pol : ChunkPolicy) (rest : Bytes) : Nat :=
  max 1 (min (pol.cut rest) pol.maxChunk)

/-- Modelled from the spec: step 1 of `writeStream` in section 4.3, the source
split into chunks in order. The first argument bounds the number of chunks;
the length of the source is enough. -/
def chunkStream (pol : ChunkPolicy) : Nat → Bytes → List Bytes
  | 0, _ => []
  | fuel + 1, rest =>
    if rest = [] then []
    else rest.take (pol.next rest) :: chunkStream pol fuel (rest.drop (pol.next rest))

/-- Modelled from the spec: steps 1 and 2 of `writeStream`: each chunk is put
in the store and referenced by a `blobRef` part with offset 0 and the chunk
length as size. -/
def writeChunks {σ : Type} (st : BlobStore σ) : σ → List Bytes → σ × List BytesPart
  | s, [] => (s, [])
  | s, b :: bs =>
    let added := st.put s b
    let rest := writeChunks st added.1 bs
    (rest.1, { BlobRef := some added.2, BytesRef := none, Size := b.length, Offset := 0 }
      :: rest.2)

/-- A list cut into consecutive groups of `k` elements (the last may be
shorter). The first argument bounds the number of groups. -/
def groupsOf (k : Nat) : Nat → List BytesPart → List (List BytesPart)
  | 0, _ => []
  | fuel + 1, l =>
    if l = [] then [] else l.take k :: groupsOf k fuel (l.drop k)

/-- Modelled from the spec: the intermediate "bytes" document over a group of
parts in step 3 of `writeStream`. -/
def bytesDoc (g : List BytesPart) : superset :=
  { newBytes with Parts := g, Size := sizeSum g }

/-- Modelled from the spec: the parameters of the Chunking Writer of section
4.3: the serializer of documents and its decoder (section 4.1), the chunk
policy and the bound on a document, counted in parts. -/
structure WriterConfig where
  encode : superset → Bytes
  decode : Bytes → Option superset
  policy : ChunkPolicy
  maxParts : Nat

/-- Modelled from the spec: one level of step 3: each group becomes a "bytes"
document put in the store, referenced by a `bytesRef` part with offset 0 and
the size of the group. -/
def packLevel {σ : Type} (st : BlobStore σ) (cfg : WriterConfig) :
    σ → List (List BytesPart) → σ × List BytesPart
  | s, [] => (s, [])
  | s, g :: gs =>
    let added := st.put s (cfg.encode (bytesDoc g))
    let rest := packLevel st cfg added.1 gs
    (rest.1, { BlobRef := none, BytesRef := some added.2, Size := sizeSum g, Offset := 0 }
      :: rest.2)

/-- Modelled from the spec: steps 2 and 3 of `writeStream`: a part list within
the bound is kept flat; a longer one is grouped into intermediate documents,
level upon level. `none`: the levels allowed by the first argument ran out. -/
def buildTree {σ : Type} (st : BlobStore σ) (cfg : WriterConfig) :
    Nat → σ → List BytesPart → Option (σ × List BytesPart)
  | fuel, s, parts =>
    if parts.length ≤ cfg.maxParts then some (s, parts)
    else
      match fuel with
      | 0 => none
      | fuel + 1 =>
        let packed := packLevel st cfg s (groupsOf cfg.maxParts parts.length parts)
        buildTree st cfg fuel packed.1 packed.2

/-- Modelled from the spec: `writeStream(store, nameOrMap, source)` of section
4.3, the `WriteFileMap` of the test file: the chunks are written, the part
tree is built, and the top-level document, populated with the parts, is put in
the store; its reference is returned with the store. `none`: the levels of the
tree ran out. -/
def WriteFileMap {σ : Type} (st : BlobStore σ) (cfg : WriterConfig) (s : σ)
    (fileMap : superset) (source : Bytes) : Option (Except Error (σ × BlobRef)) :=
  let leaves := writeChunks st s (chunkStream cfg.policy source.length source)
  match buildTree st cfg leaves.2.length leaves.1 leaves.2 with
  | none => none
  | some built =>
    match fileMap.PopulateParts (sizeSum built.2) built.2 with
    | .error e => some (.error e)
    | .ok top => some (.ok (st.put built.1 (cfg.encode top)))

/-- Every blob the first collaborators fetch, the second fetch too, and they
decode alike. -/
def Env.le (e1 e2 : Env) : Prop :=
  e1.decode = e2.decode ∧ ∀ r b, e1.fetch r = .ok b → e2.fetch r = .ok b

/-- Reading a list of parts after a skip, as `TestReader` does for a row: a
"file" document of version 1 is given the parts, a reader is opened on it,
min(skip, size) bytes are skipped with one seek from the current offset (what
`skipBytes` of the test file does on a fresh reader for a skip below 2^63),
and the rest is read to the end with buffers of `bufLen 0`, `bufLen 1`, ...
bytes. `depth` is the fuel of the recursion into nested documents and `fuel`
that of the read loop; `none`: one of them ran out. -/
def readAfterSkip (env : Env) (depth : Nat) (bufLen : Nat → Nat) (fuel : Nat)
    (name : Option Bytes) (parts : List BytesPart) (skip : Nat) :
    Option (Except Error Bytes) :=
  match ({ NewFileMap name with Parts := parts } : superset).NewFileReader with
  | .error e => some (.error e)
  | .ok fr =>
    FileReader.ReadAll env depth bufLen fuel 0
      (fr.Seek (Int.ofNat (min skip fr.size)) SeekMode.fromCurrent).2

/-- A fetcher with two raw blobs and one serialized document, and a decoder
that knows that document: the parts `Bb` and one zero byte. -/
def demoEnv : Env :=
  { fetch := fun r =>
      if r = ⟨[1]⟩ then .ok [65, 65, 97]
      else if r = ⟨[2]⟩ then .ok [66, 98]
      else if r = ⟨[9]⟩ then .ok [123]
      else .error Error.BlobNotFound,
    decode := fun bs =>
      if bs = [123] then some { newBytes with Parts := [part ⟨[2]⟩ 0 2, zero 1], Size := 3 }
      else none,
    short := fun _ _ _ => .error Error.IOError }

/-- The fetcher and decoder of `demoEnv` with any behaviour on a referent that
ends before the bytes a part names. -/
def demoEnvWith (short : BytesPart → Nat → Nat → Except Error Bytes) : Env :=
  { demoEnv with short := short }

/-- Three parts over `demoEnv`: a whole blob, two bytes of the nested document
from its offset 1 on, and the tail of the first blob. -/
def demoParts : List BytesPart :=
  [part ⟨[1]⟩ 0 3, { BlobRef := none, BytesRef := some ⟨[9]⟩, Size := 2, Offset := 1 },
    part ⟨[1]⟩ 1 2]

/-- A document as the tuple of its fields, bytes as numbers. -/
def supersetToTuple (ss : superset) :
    Bool × Nat × Option (List Nat) ×
      List (Option (List Nat) × Option (List Nat) × Nat × Nat) × Nat :=
  (decide (ss.camliType = DocType.file), ss.Version,
    ss.Name.map (fun n => n.map UInt8.toNat),
    ss.Parts.map (fun p =>
      (p.BlobRef.map (fun r => r.digest.map UInt8.toNat),
        p.BytesRef.map (fun r => r.digest.map UInt8.toNat), p.Size, p.Offset)),
    ss.Size)

/-- The document of a tuple of fields. -/
def supersetOfTuple
    (t : Bool × Nat × Option (List Nat) ×
      List (Option (List Nat) × Option (List Nat) × Nat × Nat) × Nat) : superset :=
  { camliType := if t.1 then DocType.file else DocType.bytes,
    Version := t.2.1,
    Name := t.2.2.1.map (fun n => n.map UInt8.ofNat),
    Parts := t.2.2.2.1.map (fun q =>
      { BlobRef := q.1.map (fun r => ⟨r.map UInt8.ofNat⟩),
        BytesRef := q.2.1.map (fun r => ⟨r.map UInt8.ofNat⟩),
        Size := q.2.2.1, Offset := q.2.2.2 }),
    Size := t.2.2.2.2 }

/-- A serializer for the writer: a document as its code number written in
unary. -/
def idealEncode (ss : superset) : Bytes :=
  List.replicate (Encodable.encode (supersetToTuple ss)) 0

/-- The decoder that undoes `idealEncode`. -/
def idealDecode (bs : Bytes) : Option superset :=
  (Encodable.decode bs.length).map supersetOfTuple

/-- A store that keeps the blobs put in a list and assigns to each the
reference that spells its position. -/
def counterStore : BlobStore (List Bytes) :=
  { put := fun s b => (s ++ [b], ⟨List.replicate s.length 0⟩),
    fetch := fun s r =>
      match s[r.digest.length]? with
      | none => .error Error.BlobNotFound
      | some b => .ok b }

/-- A writer with chunks of two bytes and documents of at most two parts. -/
def demoWriter : WriterConfig :=
  { encode := idealEncode, decode := idealDecode,
    policy := { cut := fun _ => 2, maxChunk := 2 }, maxParts := 2 }

/-- The function `all` of `fileread_test.go`, for a blob given by its content
and its reference. -/
def all (ref : BlobRef) (blob : Bytes) : BytesPart :=
  part ref 0 blob.length

/-- The function `skipBytes` of `fileread_test.go`: the number of bytes skipped
and the reader after; `none` is its panic. `skipBytes` is a `uint64`, and the
offsets and `fr.size` are `int64` there. -/
def skipBytes (fr : FileReader) (skipBytes : Nat) : Option (Nat × FileReader) :=
  let old := fr.Seek 0 SeekMode.fromCurrent
  let remain : Int := fileembed.wrapInt64 (Int.ofNat old.2.size - Int.ofNat old.1)
  let skip2 : Nat :=
    if fileembed.wrapInt64 (Int.ofNat skipBytes) > remain then (remain % 2 ^ 64).toNat
    else skipBytes
  let new := old.2.Seek (fileembed.wrapInt64 (Int.ofNat skip2)) SeekMode.fromCurrent
  let skipped : Int := fileembed.wrapInt64 (Int.ofNat new.1 - Int.ofNat old.1)
  if skipped < 0 then none else some ((skipped % 2 ^ 64).toNat, new.2)

/-- The type `readTest` of `fileread_test.go`. -/
structure readTest where
  parts : List BytesPart
  skip : Nat
  expected : Bytes
  deriving DecidableEq, Repr

/-- The blob `blobA` of the test file, "AAAAAaaaaa". -/
def blobA : Bytes := [65, 65, 65, 65, 65, 97, 97, 97, 97, 97]

/-- The blob `blobB` of the test file, "BBBBBbbbbb". -/
def blobB : Bytes := [66, 66, 66, 66, 66, 98, 98, 98, 98, 98]

/-- The blob `blobC` of the test file, "CCCCCccccc". -/
def blobC : Bytes := [67, 67, 67, 67, 67, 99, 99, 99, 99, 99]

/-- The document both `filePart` calls of the test table serialize: all of
`blobB`, then two bytes of `blobC` from offset 4. -/
def tableDoc : superset :=
  { newBytes with Parts := [all ⟨blobB⟩ blobB, part ⟨blobC⟩ 4 2], Size := 12 }

/-- A stand-in for the hash and the JSON code on the blobs of the test table:
the reference of a blob is its content, a document is serialized as the sizes
of its parts, and only the serialized `tableDoc` decodes. -/
def tableCodec : Codec :=
  { hash := fun b => ⟨b⟩,
    encode := fun ss => ss.Parts.map (fun p => UInt8.ofNat p.Size),
    decode := fun bs => if bs = [10, 2] then some tableDoc else none }

/-- The part a `filePart` call of the test table returns. -/
def tableFilePart (skip : Nat) : BytesPart :=
  match filePart tableCodec ⟨[]⟩ [all ⟨blobB⟩ blobB, part ⟨blobC⟩ 4 2] skip with
  | some added => added.2
  | none => zero 0

/-- The variable `testFetcher` of the test file once the table and `init` have
run: the serialized `tableDoc` and the three blobs. -/
def testFetcher : Store :=
  let s0 : Store :=
    match filePart tableCodec ⟨[]⟩ [all ⟨blobB⟩ blobB, part ⟨blobC⟩ 4 2] 0 with
    | some added => added.1
    | none => ⟨[]⟩
  (((s0.put tableCodec blobA).1.put tableCodec blobB).1.put tableCodec blobC).1

/-- The table `readTests` of `fileread_test.go`. -/
def readTests : List readTest :=
  [ ⟨[all ⟨blobA⟩ blobA], 0, blobA⟩,
    ⟨[all ⟨blobA⟩ blobA], 2, [65, 65, 65, 97, 97, 97, 97, 97]⟩,
    ⟨[part ⟨blobA⟩ 0 5], 0, [65, 65, 65, 65, 65]⟩,
    ⟨[part ⟨blobA⟩ 2 8], 0, [65, 65, 65, 97, 97, 97, 97, 97]⟩,
    ⟨[part ⟨blobA⟩ 2 8], 1, [65, 65, 97, 97, 97, 97, 97]⟩,
    ⟨[part ⟨blobA⟩ 4 6], 0, [65, 97, 97, 97, 97, 97]⟩,
    ⟨[all ⟨blobA⟩ blobA, all ⟨blobB⟩ blobB], 0, blobA ++ blobB⟩,
    ⟨[all ⟨blobA⟩ blobA, all ⟨blobB⟩ blobB], 1, blobA.drop 1 ++ blobB⟩,
    ⟨[all ⟨blobA⟩ blobA, all ⟨blobB⟩ blobB], 10, blobB⟩,
    ⟨[all ⟨blobA⟩ blobA, all ⟨blobB⟩ blobB], 11, blobB.drop 1⟩,
    ⟨[all ⟨blobA⟩ blobA, all ⟨blobB⟩ blobB], 100, []⟩,
    ⟨[all ⟨blobA⟩ blobA, all ⟨blobB⟩ blobB, all ⟨blobC⟩ blobC], 0, blobA ++ blobB ++ blobC⟩,
    ⟨[all ⟨blobA⟩ blobA, all ⟨blobB⟩ blobB, all ⟨blobC⟩ blobC], 20, blobC⟩,
    ⟨[all ⟨blobA⟩ blobA, all ⟨blobB⟩ blobB, all ⟨blobC⟩ blobC], 22,
      [67, 67, 67, 99, 99, 99, 99, 99]⟩,
    ⟨[part ⟨blobA⟩ 5 5, part ⟨blobB⟩ 0 5, part ⟨blobC⟩ 4 2], 1,
      [97, 97, 97, 97, 66, 66, 66, 66, 66, 67, 99]⟩,
    ⟨[all ⟨blobA⟩ blobA, zero 2, all ⟨blobB⟩ blobB], 5, [97, 97, 97, 97, 97, 0, 0] ++ blobB⟩,
    ⟨[all ⟨blobB⟩ blobB, part ⟨blobC⟩ 4 2], 0, blobB ++ [67, 99]⟩,
    ⟨[all ⟨blobA⟩ blobA, tableFilePart 0, part ⟨blobA⟩ 5 5], 1,
      blobA.drop 1 ++ blobB ++ [67, 99] ++ [97, 97, 97, 97, 97]⟩,
    ⟨[all ⟨blobA⟩ blobA, tableFilePart 4, part ⟨blobA⟩ 5 5], 1,
      blobA.drop 1 ++ [66, 98, 98, 98, 98, 98] ++ [67, 99] ++ [97, 97, 97, 97, 97]⟩ ]

/-- The end of the loop body of `TestReader`: `skipBytes` skips and
`ioutil.ReadAll` reads the reader to the end. `none`: the panic of
`skipBytes`, or `fuel` reads made without reaching the end. -/
def skipAndReadAll (env : Env) (depth : Nat) (bufLen : Nat → Nat) (fuel : Nat) (skip : Nat)
    (fr : FileReader) : Option (Except Error Bytes) :=
  match skipBytes fr skip with
  | none => none
  | some skipped => FileReader.ReadAll env depth bufLen fuel 0 skipped.2

/-- The body of the loop of `TestReader` for one row: a "file" document of
version 1 is given the parts of the row and nothing else, a reader is opened
on it, and the bytes after the skip are read to the end. -/
def readRow (env : Env) (depth : Nat) (bufLen : Nat → Nat) (fuel : Nat) (rt : readTest) :
    Option (Except Error Bytes) :=
  match ({ NewFileMap none with Parts := rt.parts } : superset).NewFileReader with
  | .error e => some (.error e)
  | .ok fr => skipAndReadAll env depth bufLen fuel rt.skip fr

/-- Whether a row of the table gives its expected bytes without an error,
over `testFetcher`, with read buffers of 512 bytes or more and a reader that
may enter three levels of documents. -/
def rowPasses (rt : readTest) : Bool :=
  match readRow (testFetcher.env tableCodec) 3 (fun i => 512 + i) 64 rt with
  | some (.ok got) => decide (got = rt.expected)
  | _ => false

/-- The function `TestReader` of `fileread_test.go`: whether every row of the
table passes. -/
def TestReader : Bool :=
  readTests.all rowPasses

/-- Whether the expected bytes of a row are the spans of its parts over
`testFetcher`, put together, without their first min(skip, size) bytes, for a
skip and a size that fit in an `int64` and a stream short enough for the 64
reads of `rowPasses`. -/
def rowExpectsStream (rt : readTest) : Bool :=
  decide (rt.skip < 2 ^ 63) && decide (sizeSum rt.parts < 63) &&
  decide ((spans (partSpan (testFetcher.env tableCodec) 3) rt.parts).map
      (fun s => s.drop (min rt.skip (sizeSum rt.parts))) = some rt.expected)

end schema

namespace fileembed

/-! ## Lemmas on `pkg/fileembed` -/


theorem wrapInt64_of_range (x : Int) (h1 : -2 ^ 63 ≤ x) (h2 : x < 2 ^ 63) :
    wrapInt64 x = x := by
  unfold wrapInt64
  omega

theorem wrapInt64_lower (x : Int) : -2 ^ 63 ≤ wrapInt64 x := by
  unfold wrapInt64
  omega

theorem wrapInt64_upper (x : Int) : wrapInt64 x < 2 ^ 63 := by
  unfold wrapInt64
  omega

theorem staticFile.Size_eq (sf : staticFile) (hL : (sf.contents.length : Int) < 2 ^ 63) :
    sf.Size = sf.contents.length := by
  unfold staticFile.Size
  apply wrapInt64_of_range
  · have : (0 : Int) ≤ sf.contents.length := Int.ofNat_nonneg _
    simp only [Int.ofNat_eq_coe]
    omega
  · simpa using hL

theorem fileHandle.Read_at_end (f : fileHandle) (p : Bytes)
    (hL : (f.sf.contents.length : Int) < 2 ^ 63)
    (h : (f.sf.contents.length : Int) ≤ f.off) :
    f.Read p = some { n := 0, err := some Error.EOF, p := p, f := f } := by
  have hw : wrapInt64 (Int.ofNat f.sf.contents.length) = f.sf.contents.length :=
    staticFile.Size_eq f.sf hL
  unfold fileHandle.Read
  rw [hw, if_pos (by omega)]

theorem fileHandle.Read_inside (f : fileHandle) (p : Bytes) (hc : 0 ≤ f.off)
    (hL : (f.sf.contents.length : Int) < 2 ^ 63)
    (h : f.off < (f.sf.contents.length : Int)) :
    f.Read p = some
      { n := min p.length (f.sf.contents.length - f.off.toNat),
        err := none,
        p := (f.sf.contents.drop f.off.toNat).take
                (min p.length (f.sf.contents.length - f.off.toNat)) ++
              p.drop (min p.length (f.sf.contents.length - f.off.toNat)),
        f := { f with off := f.off +
                ((min p.length (f.sf.contents.length - f.off.toNat) : Nat) : Int) } } := by
  have hw : wrapInt64 (Int.ofNat f.sf.contents.length) = f.sf.contents.length :=
    staticFile.Size_eq f.sf hL
  have hs : sliceFrom f.sf.contents f.off = some (f.sf.contents.drop f.off.toNat) := by
    unfold sliceFrom
    rw [if_pos]
    exact ⟨hc, by simp only [Int.ofNat_eq_coe]; omega⟩
  have hn : ((min p.length (f.sf.contents.length - f.off.toNat) : Nat) : Int)
      ≤ (f.sf.contents.length : Int) - f.off := by
    have : min p.length (f.sf.contents.length - f.off.toNat)
        ≤ f.sf.contents.length - f.off.toNat := Nat.min_le_right _ _
    omega
  have hwrap : wrapInt64 (f.off +
      ((min p.length (f.sf.contents.length - f.off.toNat) : Nat) : Int)) =
      f.off + ((min p.length (f.sf.contents.length - f.off.toNat) : Nat) : Int) := by
    apply wrapInt64_of_range <;> omega
  unfold fileHandle.Read
  rw [hw, if_neg (by omega), hs]
  simp only [copy, List.length_drop, Int.ofNat_eq_coe]
  rw [hwrap]

theorem readUntilEOF_spec (bufs : Nat → Bytes) (hb : ∀ j, bufs j ≠ []) :
    ∀ (fuel i : Nat) (f : fileHandle), 0 ≤ f.off →
      (f.sf.contents.length : Int) < 2 ^ 63 →
      f.sf.contents.length - f.off.toNat < fuel →
      ∃ r, readUntilEOF bufs fuel i f = some r ∧ r.err = Error.EOF ∧
        r.chunks.length ≤ f.sf.contents.length - f.off.toNat ∧
        (∀ ch ∈ r.chunks, ch ≠ []) ∧
        r.chunks.flatten = f.sf.contents.drop f.off.toNat ∧
        r.f.sf = f.sf ∧ r.f.closed = f.closed ∧
        r.f.off = max f.off (f.sf.contents.length : Int) := by
  intro fuel
  induction fuel with
  | zero => intro i f _ _ h; omega
  | succ fuel ih =>
    intro i f hc hL hfuel
    by_cases hend : (f.sf.contents.length : Int) ≤ f.off
    · refine ⟨{ chunks := [], err := Error.EOF, f := f }, ?_, rfl, ?_, ?_, ?_, rfl, rfl, ?_⟩
      · simp only [readUntilEOF, fileHandle.Read_at_end f (bufs i) hL hend]
      · simp
      · simp
      · have : f.sf.contents.length ≤ f.off.toNat := by omega
        simp [List.drop_eq_nil_of_le this]
      · simp only
        omega
    · have hin : f.off < (f.sf.contents.length : Int) := by omega
      have hbuf : 0 < (bufs i).length := List.length_pos.mpr (hb i)
      obtain ⟨n, hn⟩ : ∃ n, n = min (bufs i).length (f.sf.contents.length - f.off.toNat) :=
        ⟨_, rfl⟩
      have hn1 : 1 ≤ n := by
        rw [hn]
        apply Nat.le_min.mpr
        constructor <;> omega
      have hn2 : n ≤ f.sf.contents.length - f.off.toNat := by
        rw [hn]; exact Nat.min_le_right _ _
      have hread := fileHandle.Read_inside f (bufs i) hc hL hin
      rw [← hn] at hread
      obtain ⟨r, hr, herr, hlen, hne, hjoin, hsf, hcl, hoff⟩ :=
        ih (i + 1) { f with off := f.off + (n : Int) } (by simp only; omega) hL
          (by simp only; omega)
      simp only at hlen hjoin hsf hcl hoff
      have htake : List.take n (List.take n (List.drop f.off.toNat f.sf.contents) ++
          List.drop n (bufs i)) = List.take n (List.drop f.off.toNat f.sf.contents) := by
        rw [List.take_append_of_le_length]
        · rw [List.take_take, Nat.min_self]
        · rw [List.length_take, List.length_drop]
          omega
      have htn : (f.off + (n : Int)).toNat = f.off.toNat + n := by omega
      refine ⟨⟨List.take n (List.drop f.off.toNat f.sf.contents) :: r.chunks, r.err, r.f⟩,
          ?_, herr, ?_, ?_, ?_, hsf, hcl, ?_⟩
      · simp only [readUntilEOF, hread, hr, htake]
      · simp only [List.length_cons]
        omega
      · intro ch hch
        rcases List.mem_cons.mp hch with h | h
        · rw [h]
          apply List.ne_nil_of_length_pos
          rw [List.length_take, List.length_drop]
          omega
        · exact hne ch h
      · simp only [List.flatten_cons, hjoin, htn]
        rw [← List.drop_drop, List.take_append_drop]
      · simp only [hoff]
        omega

theorem fileHandle.step_inv (f : fileHandle) (c : Call) (hc : 0 ≤ f.off)
    (hL : (f.sf.contents.length : Int) < 2 ^ 63) :
    ∃ g, f.step c = some g ∧ 0 ≤ g.off ∧ g.sf = f.sf := by
  cases c with
  | Read p =>
    by_cases hend : (f.sf.contents.length : Int) ≤ f.off
    · exact ⟨f, by simp [fileHandle.step, fileHandle.Read_at_end f p hL hend], hc, rfl⟩
    · have hin : f.off < (f.sf.contents.length : Int) := by omega
      refine ⟨{ f with off := f.off +
          ((min p.length (f.sf.contents.length - f.off.toNat) : Nat) : Int) }, ?_, ?_, rfl⟩
      · simp only [fileHandle.step, fileHandle.Read_inside f p hc hL hin, Option.map_some']
      · simp only
        omega
  | Seek offset whence =>
    refine ⟨_, rfl, ?_, ?_⟩
    · unfold fileHandle.Seek
      simp only
      split
      · exact hc
      · simp only
        split <;> omega
    · unfold fileHandle.Seek
      simp only
      split <;> rfl
  | Close =>
    refine ⟨_, rfl, ?_, ?_⟩
    · unfold fileHandle.Close
      split <;> exact hc
    · unfold fileHandle.Close
      split <;> rfl

theorem fileHandle.run_inv (calls : List Call) :
    ∀ (f : fileHandle), 0 ≤ f.off → (f.sf.contents.length : Int) < 2 ^ 63 →
      ∃ g, f.run calls = some g ∧ 0 ≤ g.off ∧ g.sf = f.sf := by
  induction calls with
  | nil => intro f hc _; exact ⟨f, rfl, hc, rfl⟩
  | cons c cs ih =>
    intro f hc hL
    obtain ⟨g, hg, hgc, hgs⟩ := fileHandle.step_inv f c hc hL
    obtain ⟨k, hk, hkc, hks⟩ := ih g hgc (by rw [hgs]; exact hL)
    exact ⟨k, by simp only [fileHandle.run, hg, hk], hkc, by rw [hks, hgs]⟩

theorem strippedName_eq (filename : Bytes) :
    (if filename.head? = some 47 then filename.drop 1 else filename) = strippedName filename := by
  cases filename with
  | nil => simp [strippedName]
  | cons c rest =>
    by_cases h : c = 47
    · simp [strippedName, h]
    · simp [strippedName, h]

theorem Files.Open_memory (w : World) (f : Files) (filename : Bytes)
    (henv : f.OverrideEnv = [] ∨ w.getenv f.OverrideEnv = []) :
    Files.Open w f filename =
      match f.lookup (strippedName filename) with
      | none => f.openFallback w (strippedName filename)
      | some sf => some (.ok (.handle { sf := sf, off := 0, closed := false }), f) := by
  unfold Files.Open
  simp only [strippedName_eq]
  rw [if_neg]
  intro h
  rcases henv with h1 | h1
  · exact h.1 h1
  · exact h.2 h1

theorem Files.lookup_add_same (f : Files) (filename : Bytes) (sf : staticFile) :
    (f.add filename sf).lookup filename = some sf := by
  simp [Files.add, Files.lookup, List.lookup]

theorem lookup_none_iff (k : Bytes) (l : List (Bytes × staticFile)) :
    l.lookup k = none ↔ k ∉ l.map Prod.fst := by
  induction l with
  | nil => simp [List.lookup]
  | cons e rest ih =>
    obtain ⟨a, v⟩ := e
    by_cases h : k = a
    · simp [List.lookup, h]
    · have hb : (k == a) = false := by simpa using h
      simp [List.lookup, hb, ih, h]

theorem lookup_some_mem (k : Bytes) (l : List (Bytes × staticFile)) (v : staticFile)
    (h : l.lookup k = some v) : (k, v) ∈ l := by
  induction l with
  | nil => simp [List.lookup] at h
  | cons e rest ih =>
    obtain ⟨a, u⟩ := e
    by_cases hk : k = a
    · subst hk
      simp [List.lookup] at h
      simp [h]
    · have hb : (k == a) = false := by simpa using hk
      simp only [List.lookup, hb] at h
      exact List.mem_cons_of_mem _ (ih h)

theorem ReadAll_stringsNewReader (s : Bytes) : ReadAll (stringsNewReader s) = .ok s := by
  unfold stringsNewReader
  split
  · next h => simp [ReadAll, h]
  · simp [ReadAll]

theorem Files.Add_String (w : World) (f : Files) (filename s : Bytes) (size : Int)
    (modtime : Time) :
    Files.Add w f filename size (.String s) modtime =
      f.add filename { name := filename, contents := s, modtime := modtime } := by
  simp [Files.Add, Opener.Open, String.Open, ReadAll_stringsNewReader]

theorem strippedName_of_no_slash (filename : Bytes) (h : filename.head? ≠ some 47) :
    strippedName filename = filename := by
  cases filename with
  | nil => rfl
  | cons c rest =>
    have : c ≠ 47 := by simpa using h
    simp [strippedName, this]

theorem Files.Open_handle_fresh (w : World) (f g : Files) (filename : Bytes) (h : fileHandle)
    (ho : Files.Open w f filename = some (.ok (.handle h), g)) :
    h.off = 0 ∧ h.closed = false := by
  unfold Files.Open at ho
  simp only at ho
  split at ho
  · split at ho <;> simp at ho
  · split at ho
    · unfold Files.openFallback at ho
      split at ho
      · simp at ho
      · split at ho
        · simp at ho
        · split at ho
          · split at ho
            · simp at ho
            · split at ho
              · simp at ho
              · simp only [Option.some.injEq, Prod.mk.injEq, Except.ok.injEq,
                  File.handle.injEq] at ho
                rw [← ho.1]
                exact ⟨rfl, rfl⟩
          · simp at ho
    · simp only [Option.some.injEq, Prod.mk.injEq, Except.ok.injEq, File.handle.injEq] at ho
      rw [← ho.1]
      exact ⟨rfl, rfl⟩

theorem fileHandle.Read_closed (f : fileHandle) (b : Bool) (p : Bytes) :
    fileHandle.Read { f with closed := b } p =
      (f.Read p).map (fun r => { r with f := { r.f with closed := b } }) := by
  unfold fileHandle.Read
  by_cases h : f.off ≥ wrapInt64 (Int.ofNat f.sf.contents.length)
  · simp only [if_pos h, Option.map_some']
  · simp only [if_neg h]
    cases sliceFrom f.sf.contents f.off with
    | none => rfl
    | some src => rfl

theorem readUntilEOF_closed (bufs : Nat → Bytes) (b : Bool) :
    ∀ (fuel i : Nat) (f : fileHandle),
      readUntilEOF bufs fuel i { f with closed := b } =
        (readUntilEOF bufs fuel i f).map
          (fun r => { r with f := { r.f with closed := b } }) := by
  intro fuel
  induction fuel with
  | zero => intro i f; rfl
  | succ fuel ih =>
    intro i f
    simp only [readUntilEOF]
    rw [fileHandle.Read_closed]
    cases f.Read (bufs i) with
    | none => rfl
    | some r =>
      obtain ⟨n, err, q, g⟩ := r
      cases err with
      | some e => rfl
      | none =>
        simp only [Option.map_some']
        rw [ih]
        cases readUntilEOF bufs fuel (i + 1) g with
        | none => rfl
        | some rest => rfl

/-! ## The claims on `pkg/fileembed` -/

/-- C3, counterexample: on a handle whose cursor is the largest `int64`
(where `Seek(2^63-1, SEEK_SET)` puts a fresh one), `Seek(1, SEEK_CUR)` returns
and stores 0 with no error, though base + delta is `2^63`, which is
positive; the returned value is not `max(0, base + delta)`. -/
theorem Seek_overflow_counterexample :
    (fileHandle.Seek { overflowHandle with off := 0 } (2 ^ 63 - 1) SEEK_SET).2 = overflowHandle ∧
    (overflowHandle.Seek 1 SEEK_CUR).1 = (0, none) ∧
    (overflowHandle.Seek 1 SEEK_CUR).2.off = 0 ∧
    max 0 (seekBase overflowHandle SEEK_CUR + 1) = 2 ^ 63 ∧
    (overflowHandle.Seek 1 SEEK_CUR).1.1 ≠ max 0 (seekBase overflowHandle SEEK_CUR + 1) := by
  decide

/-- C3 (amended): for every handle over content of length L, every int64
delta and every whence among SEEK_SET, SEEK_CUR and SEEK_END, Seek returns no
error, and the value it returns and the cursor it stores both equal
max(0, w), where w is base + delta reduced to the int64 range by two's
complement wrap-around; whenever base + delta is itself in the int64 range
they equal max(0, base + delta), so a negative target is clamped to 0 and a
target beyond L is kept. L is below 2^63, as the length of every Go slice
is. -/
theorem Seek_clamps_wrapped_target (f : fileHandle) (delta whence : Int)
    (hd1 : -2 ^ 63 ≤ delta) (hd2 : delta < 2 ^ 63)
    (hL : (f.sf.contents.length : Int) < 2 ^ 63)
    (hw : whence = SEEK_SET ∨ whence = SEEK_CUR ∨ whence = SEEK_END) :
    (f.Seek delta whence).1.2 = none ∧
    (f.Seek delta whence).1.1 = max 0 (wrapInt64 (seekBase f whence + delta)) ∧
    (f.Seek delta whence).2 =
      { f with off := max 0 (wrapInt64 (seekBase f whence + delta)) } ∧
    (-2 ^ 63 ≤ seekBase f whence + delta → seekBase f whence + delta < 2 ^ 63 →
      (f.Seek delta whence).1.1 = max 0 (seekBase f whence + delta) ∧
      (f.Seek delta whence).2.off = max 0 (seekBase f whence + delta)) := by
  have hsize : f.sf.Size = f.sf.contents.length := staticFile.Size_eq f.sf hL
  have key : ∀ o : Int, (if o < 0 then 0 else o) = max 0 o := by
    intro o
    split <;> omega
  have hmoved : (f.Seek delta whence) =
      ((max 0 (wrapInt64 (seekBase f whence + delta)), none),
        { f with off := max 0 (wrapInt64 (seekBase f whence + delta)) }) := by
    rcases hw with h | h | h
    · subst h
      simp only [fileHandle.Seek, seekBase, if_true, key]
      rw [Int.zero_add, wrapInt64_of_range delta hd1 hd2]
    · subst h
      simp only [fileHandle.Seek, seekBase, SEEK_SET, SEEK_CUR, key]
      simp
    · subst h
      simp only [fileHandle.Seek, seekBase, SEEK_SET, SEEK_CUR, SEEK_END, key, hsize]
      simp
  refine ⟨by rw [hmoved], by rw [hmoved], by rw [hmoved], ?_⟩
  intro h1 h2
  rw [hmoved, wrapInt64_of_range _ h1 h2]
  exact ⟨rfl, rfl⟩

/-- C3 (amended), at a concrete input: seeking 5 before the end of a two-byte
content clamps to 0. -/
theorem Seek_clamps_wrapped_target_witness :
    (fileHandle.Seek ⟨⟨[], [1, 2], 0⟩, 1, false⟩ (-5) SEEK_END).1.1 = 0 :=
  ((Seek_clamps_wrapped_target ⟨⟨[], [1, 2], 0⟩, 1, false⟩ (-5) SEEK_END
    (by decide) (by decide) (by decide) (by decide)).2.2.2 (by decide) (by decide)).1

/-- C4: for a handle with cursor c >= 0 over content of length L and a buffer
p, Read returns (0, io.EOF) and leaves the handle and p as they were when
c >= L; otherwise it returns (n, nil) with n = min(len(p), L - c), the first
n bytes of p are content[c : c+n], the rest of p is unchanged and the cursor
becomes c + n. The content is shorter than 2^63 bytes, as every Go slice
is. -/
theorem Read_contract (f : fileHandle) (p : Bytes) (hc : 0 ≤ f.off)
    (hL : (f.sf.contents.length : Int) < 2 ^ 63) :
    ((f.sf.contents.length : Int) ≤ f.off →
      f.Read p = some { n := 0, err := some Error.EOF, p := p, f := f }) ∧
    (f.off < (f.sf.contents.length : Int) →
      ∃ r, f.Read p = some r ∧ r.err = none ∧
        r.n = min p.length (f.sf.contents.length - f.off.toNat) ∧
        r.p.take r.n = (f.sf.contents.drop f.off.toNat).take r.n ∧
        r.p.drop r.n = p.drop r.n ∧
        r.p.length = p.length ∧
        r.f = { f with off := f.off + (r.n : Int) }) := by
  refine ⟨fileHandle.Read_at_end f p hL, ?_⟩
  intro hin
  refine ⟨_, fileHandle.Read_inside f p hc hL hin, rfl, rfl, ?_, ?_, ?_, rfl⟩
  · simp only
    rw [List.take_append_of_le_length]
    · rw [List.take_take, Nat.min_self]
    · rw [List.length_take, List.length_drop]
      omega
  · simp only
    rw [List.drop_append_of_le_length, List.drop_of_length_le, List.nil_append]
    · rw [List.length_take, List.length_drop]
      omega
    · rw [List.length_take, List.length_drop]
      omega
  · simp only [List.length_append, List.length_take, List.length_drop]
    omega

/-- C4 at a concrete input: a four-byte buffer read at cursor 1 of a
three-byte content. -/
theorem Read_contract_witness :
    ∃ r, fileHandle.Read ⟨⟨[], [1, 2, 3], 0⟩, 1, false⟩ [9, 9, 9, 9] = some r ∧
      r.err = none ∧ r.n = 2 ∧ r.p.take r.n = [2, 3] ∧ r.p.drop r.n = [9, 9] ∧
      r.p.length = 4 ∧ r.f = ⟨⟨[], [1, 2, 3], 0⟩, 3, false⟩ := by
  obtain ⟨r, h1, h2, h3, h4, h5, h6, h7⟩ :=
    (Read_contract ⟨⟨[], [1, 2, 3], 0⟩, 1, false⟩ [9, 9, 9, 9] (by decide) (by decide)).2
      (by decide)
  have hn : r.n = 2 := h3
  rw [hn] at h4 h5 h7
  exact ⟨r, h1, h2, hn, by rw [hn]; exact h4, by rw [hn]; exact h5, h6, h7⟩

/-- C7: Close on a handle that is not closed returns nil and marks it closed;
on a closed handle it returns os.ErrInvalid and changes nothing; the cursor
and the content are never changed, and a second Close leaves the state a
single Close left. -/
theorem Close_idempotent (f : fileHandle) :
    (f.closed = false → f.Close = (none, { f with closed := true })) ∧
    (f.closed = true → f.Close = (some Error.ErrInvalid, f)) ∧
    f.Close.2.off = f.off ∧ f.Close.2.sf = f.sf ∧ f.Close.2.closed = true ∧
    f.Close.2.Close = (some Error.ErrInvalid, f.Close.2) := by
  obtain ⟨sf, off, closed⟩ := f
  cases closed <;> simp [fileHandle.Close]

/-- C8: from a handle as Files.Open returns it, any finite sequence of Read,
Seek (any whence, any delta, with wrap-around) and Close calls runs without a
panic and leaves a cursor >= 0 and the same name, content and modtime; so a
Read made next does not panic, and when it gets to the slice expression
content[cursor:] the cursor is in 0 .. len(content) - 1 and the slice is in
bounds. The content is shorter than 2^63 bytes, as every Go slice is. -/
theorem handle_calls_safe (w : World) (fs fs2 : Files) (filename : Bytes) (h : fileHandle)
    (ho : Files.Open w fs filename = some (.ok (.handle h), fs2))
    (hL : (h.sf.contents.length : Int) < 2 ^ 63) (calls : List Call) (p : Bytes) :
    h.off = 0 ∧ h.closed = false ∧
    ∃ g, h.run calls = some g ∧ 0 ≤ g.off ∧ g.sf = h.sf ∧
      (g.Read p).isSome = true ∧
      (¬ (g.off ≥ wrapInt64 (Int.ofNat g.sf.contents.length)) →
        0 ≤ g.off ∧ g.off < (g.sf.contents.length : Int) ∧
        sliceFrom g.sf.contents g.off = some (g.sf.contents.drop g.off.toNat)) := by
  obtain ⟨h0, hcl⟩ := Files.Open_handle_fresh w fs fs2 filename h ho
  refine ⟨h0, hcl, ?_⟩
  obtain ⟨g, hg, hgc, hgs⟩ := fileHandle.run_inv calls h (by omega) hL
  have hgL : (g.sf.contents.length : Int) < 2 ^ 63 := by rw [hgs]; exact hL
  have hw : wrapInt64 (Int.ofNat g.sf.contents.length) = g.sf.contents.length :=
    staticFile.Size_eq g.sf hgL
  refine ⟨g, hg, hgc, hgs, ?_, ?_⟩
  · by_cases hend : (g.sf.contents.length : Int) ≤ g.off
    · rw [fileHandle.Read_at_end g p hgL hend]; rfl
    · rw [fileHandle.Read_inside g p hgc hgL (by omega)]; rfl
  · intro hlt
    rw [hw] at hlt
    refine ⟨hgc, by omega, ?_⟩
    unfold sliceFrom
    rw [if_pos]
    exact ⟨hgc, by simp only [Int.ofNat_eq_coe]; omega⟩

/-- C8 at a concrete input: a handle opened on `/a`, then a seek past the
largest int64, a read, a close and a seek with an unknown whence. -/
theorem handle_calls_safe_witness :
    ∃ g, fileHandle.run ⟨⟨[97], [1, 2, 3], 0⟩, 0, false⟩
        [Call.Seek (2 ^ 63 - 1) 0, Call.Seek 5 1, Call.Read [0, 0], Call.Close,
          Call.Seek (-7) 9] = some g ∧ 0 ≤ g.off ∧ g.sf = ⟨[97], [1, 2, 3], 0⟩ :=
  have h := (handle_calls_safe bareWorld oneFile oneFile [47, 97]
    ⟨⟨[97], [1, 2, 3], 0⟩, 0, false⟩ rfl (by decide)
    [Call.Seek (2 ^ 63 - 1) 0, Call.Seek 5 1, Call.Read [0, 0], Call.Close, Call.Seek (-7) 9]
    []).2.2
  h.elim (fun g hg => ⟨g, hg.1, hg.2.1, hg.2.2.1⟩)

/-- C5, counterexample: with no override and no fallback, after
Add("/a", 1, String("x"), 0) on the empty file set, Open("/a") fails with
os.ErrNotExist: Add stores the entry under the key "/a" and Open looks up
"a". -/
theorem Open_after_Add_slash_counterexample :
    Files.Open bareWorld (Files.Add bareWorld emptyFiles [47, 97] 1 (.String [120]) 0)
        [47, 97] =
      some (.error Error.ErrNotExist,
        Files.Add bareWorld emptyFiles [47, 97] 1 (.String [120]) 0) ∧
    (Files.Add bareWorld emptyFiles [47, 97] 1 (.String [120]) 0).file =
      [([47, 97], { name := [47, 97], contents := [120], modtime := 0 })] := by
  constructor <;> rfl

/-- C5 (amended): with no environment override in effect, for every filename
that does not begin with "/", every string s and every modtime, after
Add(filename, size, String(s), modtime), Open(filename) succeeds and returns a
handle with cursor 0, not closed, whose content is the bytes of s, so reading
it to the end yields s; its Stat reports name filename, size len(s) and the
given modtime; Open leaves the file set as Add left it; and a later Add under
the same filename replaces the earlier content. The string is shorter than
2^63 bytes, as every Go string is. -/
theorem Open_after_Add (w : World) (f : Files) (filename s : Bytes) (size : Int)
    (modtime : Time)
    (henv : f.OverrideEnv = [] ∨ w.getenv f.OverrideEnv = [])
    (hname : filename.head? ≠ some 47)
    (hs : (s.length : Int) < 2 ^ 63) :
    Files.Open w (Files.Add w f filename size (.String s) modtime) filename =
      some (.ok (.handle ⟨⟨filename, s, modtime⟩, 0, false⟩),
        Files.Add w f filename size (.String s) modtime) ∧
    fileHandle.Stat ⟨⟨filename, s, modtime⟩, 0, false⟩ = (⟨filename, s, modtime⟩, none) ∧
    staticFile.Name ⟨filename, s, modtime⟩ = filename ∧
    staticFile.Size ⟨filename, s, modtime⟩ = s.length ∧
    staticFile.ModTime ⟨filename, s, modtime⟩ = modtime ∧
    (∀ bufs : Nat → Bytes, (∀ j, bufs j ≠ []) →
      ∃ r, readUntilEOF bufs (s.length + 1) 0 ⟨⟨filename, s, modtime⟩, 0, false⟩ = some r ∧
        r.err = Error.EOF ∧ r.chunks.flatten = s) ∧
    (∀ (size2 : Int) (s2 : Bytes) (modtime2 : Time),
      Files.Open w
          (Files.Add w (Files.Add w f filename size (.String s) modtime) filename size2
            (.String s2) modtime2) filename =
        some (.ok (.handle ⟨⟨filename, s2, modtime2⟩, 0, false⟩),
          Files.Add w (Files.Add w f filename size (.String s) modtime) filename size2
            (.String s2) modtime2)) := by
  have hopen : ∀ (g : Files) (t : Bytes) (m : Time),
      (g.OverrideEnv = [] ∨ w.getenv g.OverrideEnv = []) →
      Files.Open w (g.add filename ⟨filename, t, m⟩) filename =
        some (.ok (.handle ⟨⟨filename, t, m⟩, 0, false⟩), g.add filename ⟨filename, t, m⟩) := by
    intro g t m hg
    rw [Files.Open_memory w (g.add filename ⟨filename, t, m⟩) filename hg,
      strippedName_of_no_slash filename hname, Files.lookup_add_same]
  refine ⟨?_, rfl, rfl, staticFile.Size_eq ⟨filename, s, modtime⟩ hs, rfl, ?_, ?_⟩
  · rw [Files.Add_String]
    exact hopen f s modtime henv
  · intro bufs hb
    obtain ⟨r, hr, herr, _, _, hjoin, _⟩ :=
      readUntilEOF_spec bufs hb (s.length + 1) 0 ⟨⟨filename, s, modtime⟩, 0, false⟩
        (le_refl _) hs (by simp)
    exact ⟨r, hr, herr, by simpa using hjoin⟩
  · intro size2 s2 modtime2
    rw [Files.Add_String, Files.Add_String]
    exact hopen (f.add filename ⟨filename, s, modtime⟩) s2 modtime2 henv

/-- C5 (amended) at a concrete input: the name `a` added to the empty set. -/
theorem Open_after_Add_witness :
    Files.Open bareWorld (Files.Add bareWorld emptyFiles [97] 5 (.String [104, 105]) 7) [97] =
      some (.ok (.handle ⟨⟨[97], [104, 105], 7⟩, 0, false⟩),
        Files.Add bareWorld emptyFiles [97] 5 (.String [104, 105]) 7) :=
  (Open_after_Add bareWorld emptyFiles [97] [104, 105] 5 7 (Or.inl rfl) (by decide)
    (by decide)).1

/-- C6: with no environment override in effect and an empty DirFallback,
Open(filename) fails with os.ErrNotExist exactly when filename with at most
one leading "/" removed is not a key of the file set; otherwise it returns a
handle with cursor 0, not closed, over the entry under that key; in both cases
the file set is unchanged. -/
theorem Open_ErrNotExist_iff (w : World) (f : Files) (filename : Bytes)
    (henv : f.OverrideEnv = [] ∨ w.getenv f.OverrideEnv = [])
    (hfb : f.DirFallback = []) :
    (Files.Open w f filename = some (.error Error.ErrNotExist, f) ↔
      strippedName filename ∉ f.file.map Prod.fst) ∧
    (strippedName filename ∈ f.file.map Prod.fst →
      ∃ sf, f.lookup (strippedName filename) = some sf ∧
        (strippedName filename, sf) ∈ f.file ∧
        Files.Open w f filename =
          some (.ok (.handle { sf := sf, off := 0, closed := false }), f)) ∧
    (∃ r, Files.Open w f filename = some (r, f)) := by
  have hopen := Files.Open_memory w f filename henv
  cases hl : f.lookup (strippedName filename) with
  | none =>
    have hnot : strippedName filename ∉ f.file.map Prod.fst :=
      (lookup_none_iff _ _).mp hl
    have herr : Files.Open w f filename = some (.error Error.ErrNotExist, f) := by
      rw [hopen, hl]
      simp [Files.openFallback, hfb]
    exact ⟨⟨fun _ => hnot, fun _ => herr⟩, fun hin => absurd hin hnot, ⟨_, herr⟩⟩
  | some sf =>
    have hin : strippedName filename ∈ f.file.map Prod.fst := by
      by_contra hc
      have := (lookup_none_iff _ _).mpr hc
      rw [Files.lookup] at hl
      rw [hl] at this
      cases this
    have hok : Files.Open w f filename =
        some (.ok (.handle { sf := sf, off := 0, closed := false }), f) := by
      rw [hopen, hl]
    refine ⟨⟨?_, fun hnot => absurd hin hnot⟩, ?_, ⟨_, hok⟩⟩
    · intro herr
      rw [hok] at herr
      cases herr
    · intro _
      exact ⟨sf, rfl, lookup_some_mem _ _ _ hl, hok⟩

/-- C6 at a concrete input: `/b` is not in the one-entry set, `/a` is. -/
theorem Open_ErrNotExist_iff_witness :
    Files.Open bareWorld oneFile [47, 98] = some (.error Error.ErrNotExist, oneFile) ∧
    ∃ r, Files.Open bareWorld oneFile [47, 97] = some (r, oneFile) :=
  ⟨(Open_ErrNotExist_iff bareWorld oneFile [47, 98] (Or.inl rfl) rfl).1.mpr (by decide),
   (Open_ErrNotExist_iff bareWorld oneFile [47, 97] (Or.inl rfl) rfl).2.2⟩

/-- C9: for a handle with cursor c >= 0 over content of length L and any
sequence of non-empty buffers, calling Read until it returns an error stops
within L - c + 1 calls with io.EOF, after at most max(0, L - c) successful
reads, each of which returned at least one byte; the bytes returned, put
together, are content[min(c, L):]; and a handle that differs only in its
closed flag gives the same bytes. The content is shorter than 2^63 bytes, as
every Go slice is. -/
theorem read_to_EOF (f : fileHandle) (bufs : Nat → Bytes) (hc : 0 ≤ f.off)
    (hL : (f.sf.contents.length : Int) < 2 ^ 63) (hb : ∀ j, bufs j ≠ []) :
    ∃ r, readUntilEOF bufs (f.sf.contents.length - f.off.toNat + 1) 0 f = some r ∧
      r.err = Error.EOF ∧
      r.chunks.length ≤ f.sf.contents.length - f.off.toNat ∧
      (∀ ch ∈ r.chunks, 1 ≤ ch.length) ∧
      r.chunks.flatten = f.sf.contents.drop (min f.off.toNat f.sf.contents.length) ∧
      (∀ b : Bool, ∃ r2,
        readUntilEOF bufs (f.sf.contents.length - f.off.toNat + 1) 0 { f with closed := b } =
          some r2 ∧ r2.err = Error.EOF ∧ r2.chunks = r.chunks) := by
  obtain ⟨r, hr, herr, hlen, hne, hjoin, _⟩ :=
    readUntilEOF_spec bufs hb (f.sf.contents.length - f.off.toNat + 1) 0 f hc hL
      (Nat.lt_succ_self _)
  refine ⟨r, hr, herr, hlen, ?_, ?_, ?_⟩
  · intro ch hch
    exact List.length_pos.mpr (hne ch hch)
  · rw [hjoin]
    by_cases h : f.off.toNat ≤ f.sf.contents.length
    · rw [Nat.min_eq_left h]
    · rw [Nat.min_eq_right (by omega), List.drop_length,
        List.drop_eq_nil_of_le (by omega)]
  · intro b
    refine ⟨{ r with f := { r.f with closed := b } }, ?_, herr, rfl⟩
    rw [readUntilEOF_closed, hr]
    rfl

/-- C9 at a concrete input: one-byte buffers on a closed handle at cursor 1
of a three-byte content. -/
theorem read_to_EOF_witness :
    ∃ r, readUntilEOF (fun _ => [0]) 3 0 ⟨⟨[], [1, 2, 3], 0⟩, 1, true⟩ = some r ∧
      r.err = Error.EOF ∧ r.chunks.length ≤ 2 ∧ r.chunks.flatten = [2, 3] := by
  obtain ⟨r, h1, h2, h3, _, h5, _⟩ :=
    read_to_EOF ⟨⟨[], [1, 2, 3], 0⟩, 1, true⟩ (fun _ => [0]) (by decide) (by decide)
      (fun _ => List.cons_ne_nil _ _)
  exact ⟨r, h1, h2, h3, h5⟩

/-- C10: if the opener Open fails (as ZlibCompressed does on bytes that
zlib.NewReader rejects), or reading the opened stream to its end fails, Add
returns the Files value it was given: no entry is added and none is replaced;
whenever Add changes the value, the opener opened, the whole content was read,
and the entry stored holds that content. -/
theorem Add_atomic (w : World) (f : Files) (filename : Bytes) (size : Int) (o : Opener)
    (modtime : Time) :
    (∀ e, o.Open w = .error e → Files.Add w f filename size o modtime = f) ∧
    (∀ r e, o.Open w = .ok r → ReadAll r = .error e →
      Files.Add w f filename size o modtime = f) ∧
    (∀ zb e, w.zlibNewReader zb = .error e →
      Opener.Open w (.ZlibCompressed zb) = .error (Error.couldNotOpenZlib e) ∧
      Files.Add w f filename size (.ZlibCompressed zb) modtime = f) ∧
    (Files.Add w f filename size o modtime ≠ f →
      ∃ r contents, o.Open w = .ok r ∧ ReadAll r = .ok contents ∧
        Files.Add w f filename size o modtime =
          f.add filename { name := filename, contents := contents, modtime := modtime } ∧
        (Files.Add w f filename size o modtime).lookup filename =
          some { name := filename, contents := contents, modtime := modtime }) := by
  refine ⟨?_, ?_, ?_, ?_⟩
  · intro e he
    simp [Files.Add, he]
  · intro r e hr he
    simp [Files.Add, hr, he]
  · intro zb e he
    have hopen : Opener.Open w (.ZlibCompressed zb) = .error (Error.couldNotOpenZlib e) := by
      simp [Opener.Open, ZlibCompressed.Open, he]
    exact ⟨hopen, by simp [Files.Add, hopen]⟩
  · intro hne
    cases ho : o.Open w with
    | error e => exact absurd (by simp [Files.Add, ho]) hne
    | ok r =>
      cases hr : ReadAll r with
      | error e => exact absurd (by simp [Files.Add, ho, hr]) hne
      | ok contents =>
        have hadd : Files.Add w f filename size o modtime =
            f.add filename { name := filename, contents := contents, modtime := modtime } := by
          simp [Files.Add, ho, hr]
        exact ⟨r, contents, rfl, hr, hadd, by rw [hadd, Files.lookup_add_same]⟩

end fileembed

namespace schema

/-! ## Lemmas on the schema reader and writer -/

theorem sizeSum_append (xs ys : List BytesPart) :
    sizeSum (xs ++ ys) = sizeSum xs + sizeSum ys := by
  induction xs with
  | nil => simp [sizeSum]
  | cons p ps ih => simp [sizeSum, ih, Nat.add_assoc]

theorem prefixSums_length (ps : List BytesPart) :
    ∀ acc, (prefixSums acc ps).length = ps.length + 1 := by
  induction ps with
  | nil => intro acc; rfl
  | cons p ps ih => intro acc; simp [prefixSums, ih]

theorem prefixSums_getD (ps : List BytesPart) :
    ∀ acc i, i ≤ ps.length → (prefixSums acc ps).getD i 0 = acc + sizeSum (ps.take i) := by
  induction ps with
  | nil =>
    intro acc i hi
    have : i = 0 := by simpa using hi
    subst this
    simp [prefixSums, sizeSum]
  | cons p ps ih =>
    intro acc i hi
    cases i with
    | zero => simp [prefixSums, sizeSum]
    | succ i =>
      have hi2 : i ≤ ps.length := by simpa using hi
      simp only [prefixSums, List.getD_cons_succ, List.take_succ_cons, sizeSum]
      rw [ih (acc + p.Size) i hi2]
      omega

theorem sizeSum_take_succ (ps : List BytesPart) :
    ∀ i p, ps[i]? = some p → sizeSum (ps.take (i + 1)) = sizeSum (ps.take i) + p.Size := by
  induction ps with
  | nil => intro i p h; simp at h
  | cons q qs ih =>
    intro i p h
    cases i with
    | zero =>
      simp only [List.getElem?_cons_zero, Option.some.injEq] at h
      subst h
      simp [sizeSum]
    | succ i =>
      simp only [List.getElem?_cons_succ] at h
      simp only [List.take_succ_cons, sizeSum]
      rw [ih i p h]
      omega

theorem searchSums_spec (sums : List Nat) (c : Nat) :
    ∀ fuel lo hi, lo < hi → hi ≤ lo + fuel + 1 → sums.getD lo 0 ≤ c → c < sums.getD hi 0 →
      lo ≤ searchSums sums c fuel lo hi ∧ searchSums sums c fuel lo hi < hi ∧
      sums.getD (searchSums sums c fuel lo hi) 0 ≤ c ∧
      c < sums.getD (searchSums sums c fuel lo hi + 1) 0 := by
  intro fuel
  induction fuel with
  | zero =>
    intro lo hi h1 h2 h3 h4
    have : hi = lo + 1 := by omega
    subst this
    simp only [searchSums]
    exact ⟨le_refl _, h1, h3, h4⟩
  | succ fuel ih =>
    intro lo hi h1 h2 h3 h4
    simp only [searchSums]
    by_cases hnear : hi ≤ lo + 1
    · have : hi = lo + 1 := by omega
      subst this
      rw [if_pos hnear]
      exact ⟨le_refl _, h1, h3, h4⟩
    · rw [if_neg hnear]
      have hm1 : lo < (lo + hi) / 2 := by omega
      have hm2 : (lo + hi) / 2 < hi := by omega
      by_cases hmid : sums.getD ((lo + hi) / 2) 0 ≤ c
      · rw [if_pos hmid]
        obtain ⟨a, b, c1, d⟩ := ih ((lo + hi) / 2) hi hm2 (by omega) hmid h4
        exact ⟨by omega, b, c1, d⟩
      · rw [if_neg hmid]
        obtain ⟨a, b, c1, d⟩ := ih lo ((lo + hi) / 2) hm1 (by omega) h3 (by omega)
        exact ⟨a, by omega, c1, d⟩

theorem sizeSum_take_length (ps : List BytesPart) : sizeSum (ps.take ps.length) = sizeSum ps := by
  rw [List.take_length]

theorem locate_spec (ps : List BytesPart) (c : Nat) (hc : c < sizeSum ps) :
    ∃ p, ps[locate (prefixSums 0 ps) c]? = some p ∧
      sizeSum (ps.take (locate (prefixSums 0 ps) c)) ≤ c ∧
      c < sizeSum (ps.take (locate (prefixSums 0 ps) c)) + p.Size ∧
      (prefixSums 0 ps).getD (locate (prefixSums 0 ps) c) 0 =
        sizeSum (ps.take (locate (prefixSums 0 ps) c)) := by
  have hlen : 0 < ps.length := by
    cases ps with
    | nil => simp [sizeSum] at hc
    | cons p ps => simp
  have h0 : (prefixSums 0 ps).getD 0 0 ≤ c := by
    rw [prefixSums_getD ps 0 0 (Nat.zero_le _)]
    simp [sizeSum]
  have hlast : c < (prefixSums 0 ps).getD ps.length 0 := by
    rw [prefixSums_getD ps 0 ps.length (le_refl _), sizeSum_take_length]
    omega
  obtain ⟨_, h2, h3, h4⟩ := searchSums_spec (prefixSums 0 ps) c (prefixSums 0 ps).length 0
    ps.length hlen (by rw [prefixSums_length]; omega) h0 hlast
  have hloc : locate (prefixSums 0 ps) c =
      searchSums (prefixSums 0 ps) c (prefixSums 0 ps).length 0 ps.length := by
    unfold locate
    rw [prefixSums_length]
    rfl
  rw [← hloc] at h2 h3 h4
  obtain ⟨p, hp⟩ : ∃ p, ps[locate (prefixSums 0 ps) c]? = some p :=
    ⟨ps[locate (prefixSums 0 ps) c], List.getElem?_eq_getElem h2⟩
  have hg := prefixSums_getD ps 0 (locate (prefixSums 0 ps) c) (by omega)
  have hg1 := prefixSums_getD ps 0 (locate (prefixSums 0 ps) c + 1) (by omega)
  rw [hg] at h3
  rw [hg1, sizeSum_take_succ ps _ p hp] at h4
  refine ⟨p, hp, by omega, by omega, by rw [hg]; omega⟩

theorem spans_cons_some (f : BytesPart → Option Bytes) (p : BytesPart) (ps : List BytesPart)
    (s : Bytes) (h : spans f (p :: ps) = some s) :
    ∃ a b, f p = some a ∧ spans f ps = some b ∧ s = a ++ b := by
  simp only [spans] at h
  cases ha : f p with
  | none => simp [ha] at h
  | some a =>
    cases hb : spans f ps with
    | none => simp [ha, hb] at h
    | some b =>
      simp only [ha, hb, Option.some.injEq] at h
      exact ⟨a, b, rfl, rfl, h.symm⟩

theorem spans_split (f : BytesPart → Option Bytes) (ps : List BytesPart) :
    ∀ (s : Bytes) (i : Nat) (p : BytesPart), spans f ps = some s → ps[i]? = some p →
      ∃ pre a post, spans f (ps.take i) = some pre ∧ f p = some a ∧ s = pre ++ (a ++ post) := by
  induction ps with
  | nil => intro s i p _ h; simp at h
  | cons q qs ih =>
    intro s i p hs hp
    obtain ⟨a, b, ha, hb, hsab⟩ := spans_cons_some f q qs s hs
    cases i with
    | zero =>
      simp only [List.getElem?_cons_zero, Option.some.injEq] at hp
      subst hp
      exact ⟨[], a, b, rfl, ha, by simpa using hsab⟩
    | succ i =>
      simp only [List.getElem?_cons_succ] at hp
      obtain ⟨pre, a2, post, h1, h2, h3⟩ := ih b i p hb hp
      refine ⟨a ++ pre, a2, post, ?_, h2, ?_⟩
      · simp only [List.take_succ_cons, spans, ha, h1]
      · rw [hsab, h3, List.append_assoc]

theorem spans_length (f : BytesPart → Option Bytes)
    (hf : ∀ p a, f p = some a → a.length = p.Size) (ps : List BytesPart) :
    ∀ s, spans f ps = some s → s.length = sizeSum ps := by
  induction ps with
  | nil =>
    intro s h
    simp only [spans, Option.some.injEq] at h
    subst h
    rfl
  | cons q qs ih =>
    intro s h
    obtain ⟨a, b, ha, hb, hsab⟩ := spans_cons_some f q qs s h
    rw [hsab, List.length_append, hf q a ha, ih b hb, sizeSum]

theorem slice_length (xs : Bytes) (off size : Nat) (h : off + size ≤ xs.length) :
    ((xs.drop off).take size).length = size := by
  rw [List.length_take, List.length_drop]
  omega

theorem partSpan_length (env : Env) (d : Nat) (p : BytesPart) (a : Bytes)
    (h : partSpan env d p = some a) : a.length = p.Size := by
  cases d with
  | zero => simp [partSpan] at h
  | succ d =>
    simp only [partSpan] at h
    split at h
    · cases h
    · split at h
      · cases h
      · split at h
        · next hle =>
          simp only [Option.some.injEq] at h
          rw [← h]
          exact slice_length _ _ _ hle
        · cases h
    · simp only [Option.some.injEq] at h
      rw [← h, List.length_replicate]
    · split at h
      · cases h
      · split at h
        · cases h
        · split at h
          · cases h
          · split at h
            · next hle =>
              simp only [Option.some.injEq] at h
              rw [← h]
              exact slice_length _ _ _ hle
            · cases h

theorem virtualStream_length (env : Env) (d : Nat) (ss : superset) (s : Bytes)
    (h : virtualStream env d ss = some s) : s.length = sizeSum ss.Parts :=
  spans_length _ (partSpan_length env d) ss.Parts s h

theorem validate_ok (ss t : superset) (h : ss.validate = .ok t) : t = ss := by
  unfold superset.validate at h
  split at h
  · cases h
  · split at h
    · cases h
    · cases h
      rfl

theorem slice_drop_take (xs : Bytes) (off size loc m : Nat) (h : loc + m ≤ size) :
    (((xs.drop off).take size).drop loc).take m = (xs.drop (off + loc)).take m := by
  rw [List.drop_take, List.drop_drop, List.take_take]
  congr 1
  omega

theorem stream_at (pre a post : Bytes) (loc m : Nat) (h : loc + m ≤ a.length) :
    ((pre ++ (a ++ post)).drop (pre.length + loc)).take m = (a.drop loc).take m := by
  rw [List.drop_append, List.drop_append_of_le_length (by omega),
    List.take_append_of_le_length (by rw [List.length_drop]; omega)]

theorem NewFileReader_ok (env : Env) (b : BlobRef) (bs : Bytes) (ss : superset)
    (hf : env.fetch b = .ok bs) (hd : env.deserialize bs = .ok ss) :
    NewFileReader env b = .ok (readerAt ss 0) := by
  have hv : ss.validate = .ok ss := by
    unfold Env.deserialize at hd
    split at hd
    · cases hd
    · next t ht =>
      have := validate_ok t ss hd
      subst this
      exact hd
  have hamb : ss.Parts.any (fun p => p.BlobRef.isSome && p.BytesRef.isSome) = false := by
    unfold superset.validate at hv
    split at hv
    · cases hv
    · split at hv
      · cases hv
      · next h => simpa using h
  simp only [NewFileReader, hf, hd, superset.NewFileReader, hamb, readerAt]
  rfl

theorem Seek_fromStart (ss : superset) (c k : Nat) :
    ((readerAt ss c).Seek (Int.ofNat k) SeekMode.fromStart).2 = readerAt ss k := by
  simp only [FileReader.Seek, readerAt, Int.ofNat_eq_coe, zero_add]
  rw [if_neg (by omega)]
  simp

theorem readPart_spec (env : Env) (d : Nat)
    (sub : FileReader → Nat → Option (Except Error ReadOut))
    (hsub : ReadsStream env d sub) (p : BytesPart) (a : Bytes) (loc want : Nat)
    (ha : partSpan env (d + 1) p = some a) (hloc : loc + want ≤ p.Size) (hw : 1 ≤ want) :
    ∃ data, readPart env sub p loc want = some (.ok data) ∧ 1 ≤ data.length ∧
      data.length ≤ want ∧ data = (a.drop loc).take data.length := by
  simp only [partSpan] at ha
  unfold readPart
  split at ha
  · cases ha
  · next b hb1 hb2 =>
    split at ha
    · cases ha
    · next blob hfetch =>
      split at ha
      · next hle =>
        simp only [Option.some.injEq] at ha
        have hlen : ((blob.drop (p.Offset + loc)).take want).length = want :=
          slice_length _ _ _ (by omega)
        refine ⟨(blob.drop (p.Offset + loc)).take want, ?_, by omega, by omega, ?_⟩
        · simp only [readBlobPart, hfetch]
          rw [if_pos (by omega)]
        · rw [hlen, ← ha, slice_drop_take _ _ _ _ _ hloc]
      · cases ha
  · next hb1 hb2 =>
    simp only [Option.some.injEq] at ha
    refine ⟨List.replicate want 0, rfl, by simp; omega, by simp, ?_⟩
    rw [← ha, List.length_replicate, List.drop_replicate, List.take_replicate]
    congr 1
    omega
  · next b hb1 hb2 =>
    split at ha
    · cases ha
    · next bs hfetch =>
      split at ha
      · cases ha
      · next ss hdes =>
        split at ha
        · cases ha
        · next ns hns =>
          split at ha
          · next hle =>
            simp only [Option.some.injEq] at ha
            obtain ⟨data, hread, h1, h2, h3⟩ :=
              hsub ss ns (p.Offset + loc) want hns (by omega) hw
            refine ⟨data, ?_, h1, h2, ?_⟩
            · rw [NewFileReader_ok env b bs ss hfetch hdes]
              simp only [Seek_fromStart, hread]
              simp
            · rw [← ha, slice_drop_take _ _ _ _ _ (by omega)]
              exact h3
          · cases ha

theorem FileReader_Read_at_end (env : Env) (d : Nat) (ss : superset) (c n : Nat)
    (hc : sizeSum ss.Parts ≤ c) :
    (readerAt ss c).Read env d n =
      some (.ok { data := [], eof := true, fr := readerAt ss c }) := by
  unfold FileReader.Read
  simp only [readerAt]
  rw [if_pos hc]

theorem FileReader_Read_inside (env : Env) : ∀ d, ReadsStream env d (FileReader.Read env d) := by
  intro d
  induction d with
  | zero =>
    intro ss s c n hs hc _
    have hlen := virtualStream_length env 0 ss s hs
    obtain ⟨p, hp, _⟩ := locate_spec ss.Parts c (by omega)
    obtain ⟨_, a, _, _, ha, _⟩ := spans_split _ ss.Parts s _ p hs hp
    simp [partSpan] at ha
  | succ d ih =>
    intro ss s c n hs hc hn
    have hlen := virtualStream_length env (d + 1) ss s hs
    obtain ⟨p, hp, hlo, hhi, hget⟩ := locate_spec ss.Parts c (by omega)
    obtain ⟨pre, a, post, hpre, ha, hsplit⟩ := spans_split _ ss.Parts s _ p hs hp
    have hprelen : pre.length = sizeSum (ss.Parts.take (locate (prefixSums 0 ss.Parts) c)) :=
      spans_length _ (partSpan_length env (d + 1)) _ pre hpre
    have halen : a.length = p.Size := partSpan_length env (d + 1) p a ha
    obtain ⟨loc, hlocdef⟩ : ∃ loc, loc = c - sizeSum (ss.Parts.take
        (locate (prefixSums 0 ss.Parts) c)) := ⟨_, rfl⟩
    obtain ⟨want, hwantdef⟩ : ∃ want, want = min n (p.Size - loc) := ⟨_, rfl⟩
    have hw1 : 1 ≤ want := by
      rw [hwantdef]
      exact Nat.le_min.mpr ⟨hn, by omega⟩
    have hw2 : want ≤ n := by rw [hwantdef]; exact Nat.min_le_left _ _
    have hw3 : want ≤ p.Size - loc := by rw [hwantdef]; exact Nat.min_le_right _ _
    obtain ⟨data, hread, h1, h2, h3⟩ :=
      readPart_spec env d (FileReader.Read env d) ih p a loc want ha (by omega) hw1
    refine ⟨data, ?_, h1, by omega, ?_⟩
    · unfold FileReader.Read
      simp only [readerAt]
      rw [if_neg (by omega)]
      simp only [hp, hget, ← hlocdef, ← hwantdef, hread]
    · have hcsplit : c = pre.length + loc := by omega
      rw [hsplit, hcsplit, stream_at pre a post loc data.length (by omega)]
      exact h3

theorem ReadAll_spec (env : Env) (d : Nat) (bufLen : Nat → Nat) (hb : ∀ i, 1 ≤ bufLen i)
    (ss : superset) (s : Bytes) (hs : virtualStream env d ss = some s) :
    ∀ fuel i c, s.length - c < fuel →
      FileReader.ReadAll env d bufLen fuel i (readerAt ss c) = some (.ok (s.drop c)) := by
  have hlen := virtualStream_length env d ss s hs
  intro fuel
  induction fuel with
  | zero => intro i c h; omega
  | succ fuel ih =>
    intro i c hfuel
    by_cases hend : s.length ≤ c
    · simp only [FileReader.ReadAll, FileReader_Read_at_end env d ss c (bufLen i) (by omega)]
      simp [List.drop_eq_nil_of_le hend]
    · obtain ⟨data, hread, h1, h2, h3⟩ :=
        FileReader_Read_inside env d ss s c (bufLen i) hs (by omega) (hb i)
      have hrest := ih (i + 1) (c + data.length) (by omega)
      simp only [FileReader.ReadAll, hread, hrest]
      simp only [Bool.false_eq_true, if_false, Option.some.injEq, Except.ok.injEq]
      rw [← List.drop_drop]
      have h := List.take_append_drop data.length (s.drop c)
      rw [← h3] at h
      exact h

theorem ChunkPolicy.next_pos (pol : ChunkPolicy) (rest : Bytes) : 1 ≤ pol.next rest := by
  unfold ChunkPolicy.next
  exact Nat.le_max_left _ _

theorem chunkStream_flatten (pol : ChunkPolicy) :
    ∀ fuel rest, rest.length ≤ fuel → (chunkStream pol fuel rest).flatten = rest := by
  intro fuel
  induction fuel with
  | zero =>
    intro rest h
    have : rest = [] := List.length_eq_zero.mp (by omega)
    subst this
    rfl
  | succ fuel ih =>
    intro rest h
    simp only [chunkStream]
    by_cases hnil : rest = []
    · rw [if_pos hnil, hnil]
      rfl
    · rw [if_neg hnil, List.flatten_cons, ih]
      · exact List.take_append_drop _ _
      · have hpos : 0 < rest.length := List.length_pos.mpr hnil
        have := pol.next_pos rest
        rw [List.length_drop]
        omega

theorem groupsOf_flatten (k : Nat) (hk : 1 ≤ k) :
    ∀ fuel l, l.length ≤ fuel → (groupsOf k fuel l).flatten = l := by
  intro fuel
  induction fuel with
  | zero =>
    intro l h
    have : l = [] := List.length_eq_zero.mp (by omega)
    subst this
    rfl
  | succ fuel ih =>
    intro l h
    simp only [groupsOf]
    by_cases hnil : l = []
    · rw [if_pos hnil, hnil]
      rfl
    · rw [if_neg hnil, List.flatten_cons, ih]
      · exact List.take_append_drop _ _
      · have hpos : 0 < l.length := List.length_pos.mpr hnil
        rw [List.length_drop]
        omega

theorem groupsOf_length (k : Nat) (hk : 2 ≤ k) :
    ∀ fuel l, (groupsOf k fuel l).length ≤ (l.length + 1) / 2 := by
  intro fuel
  induction fuel with
  | zero => intro l; simp [groupsOf]
  | succ fuel ih =>
    intro l
    simp only [groupsOf]
    by_cases hnil : l = []
    · rw [if_pos hnil]
      simp
    · rw [if_neg hnil, List.length_cons]
      have hpos : 0 < l.length := List.length_pos.mpr hnil
      have := ih (l.drop k)
      rw [List.length_drop] at this
      omega

theorem spans_append (f : BytesPart → Option Bytes) (xs ys : List BytesPart) :
    ∀ s, spans f (xs ++ ys) = some s →
      ∃ a b, spans f xs = some a ∧ spans f ys = some b ∧ s = a ++ b := by
  induction xs with
  | nil => intro s h; exact ⟨[], s, rfl, h, rfl⟩
  | cons p ps ih =>
    intro s h
    obtain ⟨a, b, ha, hb, hs⟩ := spans_cons_some f p (ps ++ ys) s h
    obtain ⟨a2, b2, ha2, hb2, hs2⟩ := ih b hb
    refine ⟨a ++ a2, b2, ?_, hb2, ?_⟩
    · simp only [spans, ha, ha2]
    · rw [hs, hs2, List.append_assoc]

theorem spans_mono (f g : BytesPart → Option Bytes)
    (hfg : ∀ p a, f p = some a → g p = some a) (ps : List BytesPart) :
    ∀ s, spans f ps = some s → spans g ps = some s := by
  induction ps with
  | nil => intro s h; exact h
  | cons p ps ih =>
    intro s h
    obtain ⟨a, b, ha, hb, hs⟩ := spans_cons_some f p ps s h
    simp only [spans, hfg p a ha, ih b hb, hs]

theorem partSpan_mono (e1 e2 : Env) (hle : e1.le e2) :
    ∀ d1 d2 p a, d1 ≤ d2 → partSpan e1 d1 p = some a → partSpan e2 d2 p = some a := by
  intro d1
  induction d1 with
  | zero => intro d2 p a _ h; simp [partSpan] at h
  | succ d1 ih =>
    intro d2 p a hd h
    obtain ⟨d2, rfl⟩ : ∃ k, d2 = k + 1 := ⟨d2 - 1, by omega⟩
    have hd2 : d1 ≤ d2 := by omega
    simp only [partSpan] at h ⊢
    split at h
    · cases h
    · split at h
      · cases h
      · next blob hfetch =>
        rw [hle.2 _ _ hfetch]
        exact h
    · exact h
    · split at h
      · cases h
      · next bs hfetch =>
        rw [hle.2 _ _ hfetch]
        have hdes : e2.deserialize bs = e1.deserialize bs := by
          simp only [Env.deserialize, hle.1]
        simp only
        rw [hdes]
        split at h
        · cases h
        · next ss hss =>
          split at h
          · cases h
          · next ns hns =>
            rw [spans_mono _ _ (fun q b hq => ih d2 q b hd2 hq) ss.Parts ns hns]
            exact h

theorem Env.le_refl (e : Env) : e.le e := ⟨rfl, fun _ _ h => h⟩

theorem Env.le_trans (e1 e2 e3 : Env) (h12 : e1.le e2) (h23 : e2.le e3) : e1.le e3 :=
  ⟨h12.1.trans h23.1, fun r b h => h23.2 r b (h12.2 r b h)⟩

theorem spans_partSpan_mono (e1 e2 : Env) (hle : e1.le e2) (d1 d2 : Nat) (hd : d1 ≤ d2)
    (ps : List BytesPart) (s : Bytes) (h : spans (partSpan e1 d1) ps = some s) :
    spans (partSpan e2 d2) ps = some s :=
  spans_mono _ _ (fun p a hp => partSpan_mono e1 e2 hle d1 d2 p a hd hp) ps s h

theorem spans_not_ambiguous (env : Env) (d : Nat) (ps : List BytesPart) :
    ∀ s, spans (partSpan env d) ps = some s →
      ps.any (fun p => p.BlobRef.isSome && p.BytesRef.isSome) = false := by
  induction ps with
  | nil => intro s _; rfl
  | cons p ps ih =>
    intro s h
    obtain ⟨a, b, ha, hb, _⟩ := spans_cons_some _ p ps s h
    simp only [List.any_cons, ih b hb, Bool.or_false]
    cases d with
    | zero => simp [partSpan] at ha
    | succ d =>
      simp only [partSpan] at ha
      split at ha
      · cases ha
      · next h1 h2 => simp [h1, h2]
      · next h1 h2 => simp [h1, h2]
      · next h1 h2 => simp [h1, h2]

theorem validate_of_spans (env : Env) (d : Nat) (ss : superset) (s : Bytes)
    (hs : spans (partSpan env d) ss.Parts = some s) (hsize : ss.Size = sizeSum ss.Parts) :
    ss.validate = .ok ss := by
  unfold superset.validate
  rw [if_neg (by simp [hsize]), spans_not_ambiguous env d ss.Parts s hs]
  simp

theorem blob_part_span (env : Env) (d : Nat) (ref : BlobRef) (b : Bytes)
    (hf : env.fetch ref = .ok b) :
    partSpan env (d + 1)
      { BlobRef := some ref, BytesRef := none, Size := b.length, Offset := 0 } = some b := by
  simp only [partSpan, hf]
  simp

theorem nested_part_span (env : Env) (d : Nat) (ref : BlobRef) (bs : Bytes) (doc : superset)
    (data : Bytes) (hf : env.fetch ref = .ok bs) (hd : env.decode bs = some doc)
    (hsize : doc.Size = sizeSum doc.Parts)
    (hs : spans (partSpan env d) doc.Parts = some data) :
    partSpan env (d + 1)
      { BlobRef := none, BytesRef := some ref, Size := sizeSum doc.Parts, Offset := 0 } =
      some data := by
  have hlen : data.length = sizeSum doc.Parts :=
    spans_length _ (partSpan_length env d) doc.Parts data hs
  have hdes : env.deserialize bs = .ok doc := by
    simp only [Env.deserialize, hd, validate_of_spans env d doc data hs hsize]
  simp only [partSpan, hf, hdes, hs]
  rw [if_pos (by omega), List.drop_zero, ← hlen, List.take_length]

theorem BlobStore.put_le {σ : Type} (st : BlobStore σ) (hst : st.Immutable)
    (decode : Bytes → Option superset) (sh1 sh2 : BytesPart → Nat → Nat → Except Error Bytes)
    (s : σ) (b : Bytes) :
    (st.env decode sh1 s).le (st.env decode sh2 (st.put s b).1) :=
  ⟨rfl, fun r x hx => hst.2 s b r x hx⟩

theorem writeChunks_spec {σ : Type} (st : BlobStore σ) (hst : st.Immutable)
    (decode : Bytes → Option superset) (sh : BytesPart → Nat → Nat → Except Error Bytes) :
    ∀ (cs : List Bytes) (s : σ),
      (st.env decode sh s).le (st.env decode sh (writeChunks st s cs).1) ∧
      spans (partSpan (st.env decode sh (writeChunks st s cs).1) 1) (writeChunks st s cs).2 =
        some cs.flatten ∧
      (writeChunks st s cs).2.length = cs.length := by
  intro cs
  induction cs with
  | nil => intro s; exact ⟨Env.le_refl _, rfl, rfl⟩
  | cons b bs ih =>
    intro s
    obtain ⟨h2, h3, h4⟩ := ih (st.put s b).1
    have hput := BlobStore.put_le st hst decode sh sh s b
    have hleaf : partSpan (st.env decode sh (st.put s b).1) 1
        { BlobRef := some (st.put s b).2, BytesRef := none, Size := b.length, Offset := 0 } =
        some b :=
      blob_part_span _ 0 _ b (hst.1 s b)
    have hleaf2 := partSpan_mono _ _ h2 1 1 _ _ (le_refl _) hleaf
    refine ⟨Env.le_trans _ _ _ hput h2, ?_, ?_⟩
    · simp only [writeChunks, spans, hleaf2, h3, List.flatten_cons]
    · simp only [writeChunks, List.length_cons, h4]

theorem packLevel_spec {σ : Type} (st : BlobStore σ) (hst : st.Immutable)
    (cfg : WriterConfig) (hcodec : ∀ doc, cfg.decode (cfg.encode doc) = some doc)
    (sh : BytesPart → Nat → Nat → Except Error Bytes) (d : Nat) :
    ∀ (gs : List (List BytesPart)) (s : σ) (data : Bytes),
      spans (partSpan (st.env cfg.decode sh s) d) gs.flatten = some data →
      (st.env cfg.decode sh s).le (st.env cfg.decode sh (packLevel st cfg s gs).1) ∧
      spans (partSpan (st.env cfg.decode sh (packLevel st cfg s gs).1) (d + 1))
        (packLevel st cfg s gs).2 = some data ∧
      (packLevel st cfg s gs).2.length = gs.length := by
  intro gs
  induction gs with
  | nil =>
    intro s data h
    exact ⟨Env.le_refl _, spans_partSpan_mono _ _ (Env.le_refl _) d (d + 1) (by omega) _ _ h,
      rfl⟩
  | cons g gs ih =>
    intro s data h
    rw [List.flatten_cons] at h
    obtain ⟨dg, dr, hg, hr, hdata⟩ := spans_append _ g gs.flatten data h
    have hput := BlobStore.put_le st hst cfg.decode sh sh s (cfg.encode (bytesDoc g))
    obtain ⟨h2, h3, h4⟩ := ih (st.put s (cfg.encode (bytesDoc g))).1 dr
      (spans_partSpan_mono _ _ hput d d (le_refl _) _ _ hr)
    have hnode : partSpan (st.env cfg.decode sh (st.put s (cfg.encode (bytesDoc g))).1) (d + 1)
        { BlobRef := none, BytesRef := some (st.put s (cfg.encode (bytesDoc g))).2,
          Size := sizeSum g, Offset := 0 } = some dg :=
      nested_part_span _ d _ (cfg.encode (bytesDoc g)) (bytesDoc g) dg
        (hst.1 s _) (hcodec _) rfl
        (spans_partSpan_mono _ _ hput d d (le_refl _) _ _ hg)
    have hnode2 := partSpan_mono _ _ h2 (d + 1) (d + 1) _ _ (le_refl _) hnode
    refine ⟨Env.le_trans _ _ _ hput h2, ?_, ?_⟩
    · simp only [packLevel, spans, hnode2, h3, hdata]
    · simp only [packLevel, List.length_cons, h4]

theorem buildTree_spec {σ : Type} (st : BlobStore σ) (hst : st.Immutable)
    (cfg : WriterConfig) (hcodec : ∀ doc, cfg.decode (cfg.encode doc) = some doc)
    (sh : BytesPart → Nat → Nat → Except Error Bytes) (hk : 2 ≤ cfg.maxParts) :
    ∀ (fuel : Nat) (s : σ) (parts : List BytesPart) (d : Nat) (data : Bytes),
      parts.length ≤ fuel →
      spans (partSpan (st.env cfg.decode sh s) d) parts = some data →
      ∃ s2 ps, buildTree st cfg fuel s parts = some (s2, ps) ∧
        (st.env cfg.decode sh s).le (st.env cfg.decode sh s2) ∧
        spans (partSpan (st.env cfg.decode sh s2) (d + fuel)) ps = some data := by
  intro fuel
  induction fuel with
  | zero =>
    intro s parts d data hlen h
    refine ⟨s, parts, ?_, Env.le_refl _, h⟩
    unfold buildTree
    rw [if_pos (by omega)]
  | succ fuel ih =>
    intro s parts d data hlen h
    by_cases hfit : parts.length ≤ cfg.maxParts
    · refine ⟨s, parts, ?_, Env.le_refl _,
        spans_partSpan_mono _ _ (Env.le_refl _) d _ (by omega) _ _ h⟩
      unfold buildTree
      rw [if_pos hfit]
    · have hflat : (groupsOf cfg.maxParts parts.length parts).flatten = parts :=
        groupsOf_flatten cfg.maxParts (by omega) parts.length parts (le_refl _)
      have hcount := groupsOf_length cfg.maxParts hk parts.length parts
      obtain ⟨h2, h3, h4⟩ := packLevel_spec st hst cfg hcodec sh d
        (groupsOf cfg.maxParts parts.length parts) s data (by rw [hflat]; exact h)
      obtain ⟨s2, ps, hb, hle, hsp⟩ := ih
        (packLevel st cfg s (groupsOf cfg.maxParts parts.length parts)).1
        (packLevel st cfg s (groupsOf cfg.maxParts parts.length parts)).2
        (d + 1) data (by rw [h4]; omega) h3
      refine ⟨s2, ps, ?_, Env.le_trans _ _ _ h2 hle, ?_⟩
      · rw [buildTree, if_neg hfit]
        exact hb
      · have : d + 1 + fuel = d + (fuel + 1) := by omega
        rw [← this]
        exact hsp

theorem UInt8_ofNat_toNat (u : UInt8) : UInt8.ofNat u.toNat = u := by
  cases u with
  | mk v =>
    apply UInt8.eq_of_val_eq
    apply Fin.ext
    simp [UInt8.ofNat, UInt8.toNat, Fin.ofNat, Nat.mod_eq_of_lt v.isLt]

theorem bytes_ofNat_toNat (bs : Bytes) : (bs.map UInt8.toNat).map UInt8.ofNat = bs := by
  induction bs with
  | nil => rfl
  | cons b bs ih => simp only [List.map_cons, UInt8_ofNat_toNat, ih]

theorem ref_ofNat_toNat (r : Option BlobRef) :
    (r.map (fun r => r.digest.map UInt8.toNat)).map
      (fun r => (⟨r.map UInt8.ofNat⟩ : BlobRef)) = r := by
  cases r with
  | none => rfl
  | some r =>
    cases r with
    | mk d => simp only [Option.map_some', bytes_ofNat_toNat]

theorem supersetOfTuple_toTuple (ss : superset) : supersetOfTuple (supersetToTuple ss) = ss := by
  obtain ⟨ty, ver, name, parts, size⟩ := ss
  have hty : (if decide (ty = DocType.file) = true then DocType.file else DocType.bytes) = ty := by
    cases ty <;> simp
  have hname : (name.map (fun n => n.map UInt8.toNat)).map (fun n => n.map UInt8.ofNat) =
      name := by
    cases name with
    | none => rfl
    | some n => simp only [Option.map_some', bytes_ofNat_toNat]
  have hparts : (parts.map (fun p =>
      (p.BlobRef.map (fun r => r.digest.map UInt8.toNat),
        p.BytesRef.map (fun r => r.digest.map UInt8.toNat), p.Size, p.Offset))).map
      (fun q => ({ BlobRef := q.1.map (fun r => ⟨r.map UInt8.ofNat⟩),
                   BytesRef := q.2.1.map (fun r => ⟨r.map UInt8.ofNat⟩),
                   Size := q.2.2.1, Offset := q.2.2.2 } : BytesPart)) = parts := by
    induction parts with
    | nil => rfl
    | cons p ps ih =>
      obtain ⟨b1, b2, sz, off⟩ := p
      simp only [List.map_cons, ref_ofNat_toNat, ih]
  simp only [supersetOfTuple, supersetToTuple, hty, hname, hparts]

theorem idealDecode_encode (ss : superset) : idealDecode (idealEncode ss) = some ss := by
  simp only [idealDecode, idealEncode, List.length_replicate, Encodable.encodek,
    Option.map_some', supersetOfTuple_toTuple]

theorem counterStore_immutable : counterStore.Immutable := by
  constructor
  · intro s b
    simp [counterStore]
  · intro s b r x hx
    simp only [counterStore] at hx ⊢
    cases hget : s[r.digest.length]? with
    | none => simp [hget] at hx
    | some y =>
      simp only [hget, Except.ok.injEq] at hx
      have hlt : r.digest.length < s.length := by
        rcases Nat.lt_or_ge r.digest.length s.length with h | h
        · exact h
        · rw [List.getElem?_eq_none h] at hget
          cases hget
      rw [List.getElem?_append_left hlt, hget, hx]

theorem Seek_fresh (ss : superset) (k : Nat) (mode : SeekMode) (hm : mode ≠ SeekMode.fromEnd) :
    (readerAt ss 0).Seek (Int.ofNat k) mode = (k, readerAt ss k) := by
  cases mode with
  | fromStart =>
    simp only [FileReader.Seek, readerAt, Int.ofNat_eq_coe, zero_add]
    rw [if_neg (by omega)]
    simp
  | fromCurrent =>
    simp only [FileReader.Seek, readerAt, Int.ofNat_eq_coe, Nat.cast_zero, zero_add]
    rw [if_neg (by omega)]
    simp
  | fromEnd => exact absurd rfl hm

theorem skipBytes_fresh (ss : superset) (skip : Nat) (h1 : skip < 2 ^ 63)
    (h2 : sizeSum ss.Parts < 2 ^ 63) :
    skipBytes (readerAt ss 0) skip =
      some (min skip (sizeSum ss.Parts), readerAt ss (min skip (sizeSum ss.Parts))) := by
  have hseek0 := Seek_fresh ss 0 SeekMode.fromCurrent (by decide)
  simp only [Int.ofNat_eq_coe, Nat.cast_zero] at hseek0
  have hsize : (readerAt ss 0).size = sizeSum ss.Parts := rfl
  have hremain : fileembed.wrapInt64 ((sizeSum ss.Parts : Int) - ((0 : Nat) : Int)) =
      (sizeSum ss.Parts : Int) := by
    rw [fileembed.wrapInt64_of_range] <;> omega
  have hskip : fileembed.wrapInt64 (skip : Int) = (skip : Int) := by
    rw [fileembed.wrapInt64_of_range] <;> omega
  obtain ⟨m, hm⟩ : ∃ m, m = min skip (sizeSum ss.Parts) := ⟨_, rfl⟩
  have hskip2 : (if (skip : Int) > (sizeSum ss.Parts : Int)
      then ((sizeSum ss.Parts : Int) % 2 ^ 64).toNat else skip) = m := by
    rw [hm]
    split <;> omega
  have hm2 : fileembed.wrapInt64 (m : Int) = (m : Int) := by
    rw [fileembed.wrapInt64_of_range] <;> omega
  have hseekm := Seek_fresh ss m SeekMode.fromCurrent (by decide)
  simp only [Int.ofNat_eq_coe] at hseekm
  have hskipped : fileembed.wrapInt64 ((m : Int) - ((0 : Nat) : Int)) = (m : Int) := by
    rw [fileembed.wrapInt64_of_range] <;> omega
  simp only [skipBytes, Int.ofNat_eq_coe, hseek0, hsize, hremain, hskip, hskip2, hm2, hseekm,
    hskipped]
  rw [if_neg (by omega), ← hm]
  have : ((m : Int) % 2 ^ 64).toNat = m := by omega
  rw [this]

theorem NewFileReader_of_spans (env : Env) (d : Nat) (ss : superset) (s : Bytes)
    (hs : spans (partSpan env d) ss.Parts = some s) :
    ss.NewFileReader = .ok (readerAt ss 0) := by
  simp only [superset.NewFileReader, spans_not_ambiguous env d ss.Parts s hs, readerAt]
  rfl

theorem readRow_of_stream (env : Env) (depth : Nat) (bufLen : Nat → Nat) (fuel : Nat)
    (rt : readTest) (stream : Bytes)
    (hsp : spans (partSpan env depth) rt.parts = some stream) (hb : ∀ i, 1 ≤ bufLen i)
    (hskip : rt.skip < 2 ^ 63) (hsize : sizeSum rt.parts < 2 ^ 63)
    (hfuel : sizeSum rt.parts - min rt.skip (sizeSum rt.parts) < fuel) :
    readRow env depth bufLen fuel rt =
      some (.ok (stream.drop (min rt.skip (sizeSum rt.parts)))) := by
  obtain ⟨ss, hss⟩ : ∃ ss : superset, ss = { NewFileMap none with Parts := rt.parts } :=
    ⟨_, rfl⟩
  have hparts : ss.Parts = rt.parts := by rw [hss]
  have hnew : ss.NewFileReader = .ok (readerAt ss 0) :=
    NewFileReader_of_spans env depth ss stream (by rw [hparts]; exact hsp)
  have hvs : virtualStream env depth ss = some stream := by
    unfold virtualStream
    rw [hparts]
    exact hsp
  have hlen : stream.length = sizeSum rt.parts :=
    spans_length _ (partSpan_length env depth) rt.parts stream hsp
  have hread := ReadAll_spec env depth bufLen hb ss stream hvs fuel 0
    (min rt.skip (sizeSum rt.parts)) (by rw [hlen]; omega)
  have hsk := skipBytes_fresh ss rt.skip hskip (by rw [hparts]; exact hsize)
  rw [hparts] at hsk
  have hskip2 : skipAndReadAll env depth bufLen fuel rt.skip (readerAt ss 0) =
      some (.ok (stream.drop (min rt.skip (sizeSum rt.parts)))) := by
    rw [skipAndReadAll, hsk]
    exact hread
  rw [readRow, ← hss, hnew]
  exact hskip2

theorem Read_shape (env : Env) (depth : Nat) (fr : FileReader) (n : Nat) (out : ReadOut)
    (h : fr.Read env depth n = some (.ok out)) :
    (out.eof = true ∧ fr.size ≤ fr.cursor) ∨
    (out.eof = false ∧ out.fr.size = fr.size ∧
      out.fr.cursor = fr.cursor + out.data.length) := by
  unfold FileReader.Read at h
  split at h
  · next hend =>
    simp only [Option.some.injEq, Except.ok.injEq] at h
    rw [← h]
    exact Or.inl ⟨rfl, hend⟩
  · cases depth with
    | zero => simp at h
    | succ d =>
      simp only at h
      split at h
      · simp at h
      · split at h
        · simp at h
        · simp at h
        · simp only [Option.some.injEq, Except.ok.injEq] at h
          rw [← h]
          exact Or.inr ⟨rfl, rfl, rfl⟩

theorem ReadAll_length_ge (env : Env) (depth : Nat) (bufLen : Nat → Nat) :
    ∀ (fuel i : Nat) (fr : FileReader) (bytes : Bytes),
      FileReader.ReadAll env depth bufLen fuel i fr = some (.ok bytes) →
      fr.size ≤ fr.cursor + bytes.length := by
  intro fuel
  induction fuel with
  | zero => intro i fr bytes h; simp [FileReader.ReadAll] at h
  | succ fuel ih =>
    intro i fr bytes h
    simp only [FileReader.ReadAll] at h
    cases hr : fr.Read env depth (bufLen i) with
    | none => simp [hr] at h
    | some res =>
      cases res with
      | error e => simp [hr] at h
      | ok out =>
        simp only [hr] at h
        rcases Read_shape env depth fr (bufLen i) out hr with ⟨_, hend⟩ | ⟨heof, hsz, hcur⟩
        · omega
        · simp only [heof, Bool.false_eq_true, if_false] at h
          cases hrest : FileReader.ReadAll env depth bufLen fuel (i + 1) out.fr with
          | none => simp [hrest] at h
          | some res2 =>
            cases res2 with
            | error e => simp [hrest] at h
            | ok rest =>
              simp only [hrest, Option.some.injEq, Except.ok.injEq] at h
              have := ih (i + 1) out.fr rest hrest
              rw [← h, List.length_append]
              omega

theorem rowPasses_of_stream (rt : readTest) (h : rowExpectsStream rt = true) :
    rowPasses rt = true := by
  simp only [rowExpectsStream, Bool.and_eq_true, decide_eq_true_eq] at h
  obtain ⟨⟨hskip, hsize⟩, hstream⟩ := h
  cases hsp : spans (partSpan (testFetcher.env tableCodec) 3) rt.parts with
  | none =>
    rw [hsp] at hstream
    cases hstream
  | some stream =>
    rw [hsp] at hstream
    have hdrop : stream.drop (min rt.skip (sizeSum rt.parts)) = rt.expected :=
      Option.some.inj hstream
    have hrow := readRow_of_stream (testFetcher.env tableCodec) 3 (fun i => 512 + i) 64 rt
      stream hsp (fun i => Nat.le_add_right_of_le (by decide)) hskip (by omega) (by omega)
    rw [rowPasses, hrow, hdrop]
    exact decide_eq_true rfl

theorem TestReader_passes : TestReader = true := by
  unfold TestReader
  rw [List.all_eq_true]
  intro rt hrt
  have hall : readTests.all rowExpectsStream = true := by decide
  exact rowPasses_of_stream rt (List.all_eq_true.mp hall rt hrt)

/-! ## The claims on the schema reader and writer -/

/-- C1, counterexample: over a fetcher that holds the blobs `AAa` and `Bb`,
the parts (blob 1 from offset 2, size 3) and (blob 2, whole) have their
referenced blobs present. Bytes 2 to 5 of the three-byte blob are the one byte
`a`, so the spans put together are `aBb` and, without the first
min(2, 5) = 2 bytes, `b`. No read to the end after the skip of 2 returns `b`
without error, whatever the reader does where the blob ends and whatever the
buffers and the fuel: a read to the end that starts at offset 2 of a size of 5
returns at least three bytes. And a part that sets both references, to blobs
that are present, is refused with AmbiguousPart when the reader is opened. -/
theorem readAfterSkip_counterexample :
    demoEnv.fetch ⟨[1]⟩ = .ok [65, 65, 97] ∧ demoEnv.fetch ⟨[2]⟩ = .ok [66, 98] ∧
    ((([65, 65, 97] : Bytes).drop 2).take 3 ++ (([66, 98] : Bytes).drop 0).take 2).drop
        (min 2 (sizeSum [part ⟨[1]⟩ 2 3, part ⟨[2]⟩ 0 2])) = [98] ∧
    (∀ short depth bufLen fuel,
      readAfterSkip (demoEnvWith short) depth bufLen fuel none
        [part ⟨[1]⟩ 2 3, part ⟨[2]⟩ 0 2] 2 ≠ some (.ok [98])) ∧
    (∀ short depth bufLen fuel skip,
      readAfterSkip (demoEnvWith short) depth bufLen fuel none
        [{ BlobRef := some ⟨[1]⟩, BytesRef := some ⟨[2]⟩, Size := 2, Offset := 0 }] skip =
      some (.error Error.AmbiguousPart)) := by
  refine ⟨rfl, rfl, by decide, ?_, ?_⟩
  · intro short depth bufLen fuel h
    have hlen := ReadAll_length_ge (demoEnvWith short) depth bufLen fuel 0
      (readerAt { NewFileMap none with Parts := [part ⟨[1]⟩ 2 3, part ⟨[2]⟩ 0 2] } 2) [98] h
    revert hlen
    decide
  · intro short depth bufLen fuel skip
    rfl

/-- C1 (amended): for every ordered list of parts each of which has a resolved
span (at most one reference set; for a blobRef part the blob is in the fetcher
and holds bytes `[offset, offset+size)`, which are the span; for a part with
neither reference the span is `size` zero bytes; for a bytesRef part the
nested document is in the fetcher, decodes and validates, and its own stream,
resolved the same way through finitely many levels of documents, holds bytes
`[offset, offset+size)`, which are the span) and every skip count, building a
"file" document from the parts, opening a reader on it, skipping
min(skip, total size) bytes with Seek and reading to the end returns, without
error, the spans put together in list order without their first
min(skip, total size) bytes; a skip at or beyond the total size gives the
empty result and no error; and a row of `TestReader`, which skips with
`skipBytes`, reads the same bytes when the skip and the total size are below
2^63. The reads use buffers of any positive lengths, and the result is given
by every fuel that is enough: a recursion fuel of at least the number `d` of
levels through which the parts resolve, and more reads than bytes remain. -/
theorem readAfterSkip_virtual_stream (env : Env) (d : Nat) (name : Option Bytes)
    (parts : List BytesPart) (skip : Nat) (bufLen : Nat → Nat) (stream : Bytes)
    (hs : spans (partSpan env d) parts = some stream)
    (hb : ∀ i, 1 ≤ bufLen i) :
    stream.length = sizeSum parts ∧
    ∀ depth fuel, d ≤ depth → sizeSum parts - min skip (sizeSum parts) < fuel →
      readAfterSkip env depth bufLen fuel name parts skip =
        some (.ok (stream.drop (min skip (sizeSum parts)))) ∧
      (sizeSum parts ≤ skip →
        readAfterSkip env depth bufLen fuel name parts skip = some (.ok [])) ∧
      (∀ expected, skip < 2 ^ 63 → sizeSum parts < 2 ^ 63 →
        readRow env depth bufLen fuel ⟨parts, skip, expected⟩ =
          some (.ok (stream.drop (min skip (sizeSum parts))))) := by
  have hlen : stream.length = sizeSum parts :=
    spans_length _ (partSpan_length env d) parts stream hs
  refine ⟨hlen, ?_⟩
  intro depth fuel hdepth hfuel
  have hs2 : spans (partSpan env depth) parts = some stream :=
    spans_partSpan_mono env env (Env.le_refl env) d depth hdepth parts stream hs
  obtain ⟨ss, hss⟩ : ∃ ss : superset, ss = { NewFileMap name with Parts := parts } :=
    ⟨_, rfl⟩
  have hparts : ss.Parts = parts := by rw [hss]
  have hnew : ss.NewFileReader = .ok (readerAt ss 0) :=
    NewFileReader_of_spans env depth ss stream (by rw [hparts]; exact hs2)
  have hvs : virtualStream env depth ss = some stream := by
    unfold virtualStream
    rw [hparts]
    exact hs2
  have hread := ReadAll_spec env depth bufLen hb ss stream hvs fuel 0
    (min skip (sizeSum parts)) (by rw [hlen]; omega)
  have hseek := Seek_fresh ss (min skip (sizeSum parts)) SeekMode.fromCurrent (by decide)
  have hsize : (readerAt ss 0).size = sizeSum parts := by
    simp only [readerAt, hparts]
  have hrun : readAfterSkip env depth bufLen fuel name parts skip =
      some (.ok (stream.drop (min skip (sizeSum parts)))) := by
    rw [readAfterSkip, ← hss, hnew]
    show FileReader.ReadAll env depth bufLen fuel 0
      ((readerAt ss 0).Seek (Int.ofNat (min skip (readerAt ss 0).size))
        SeekMode.fromCurrent).2 = _
    rw [hsize, hseek]
    exact hread
  refine ⟨hrun, ?_, ?_⟩
  · intro hskip
    rw [hrun, List.drop_eq_nil_of_le (by rw [hlen]; omega)]
  · intro expected hskip hsz
    exact readRow_of_stream env depth bufLen fuel ⟨parts, skip, expected⟩ stream hs2 hb hskip
      hsz hfuel

/-- C1 (amended) at a concrete input: a whole blob, a slice of a nested
document and a blob tail, read after a skip of one byte. -/
theorem readAfterSkip_virtual_stream_witness :
    readAfterSkip demoEnv 2 (fun _ => 4) 7 none demoParts 1 =
      some (.ok [65, 97, 98, 0, 65, 97]) :=
  ((readAfterSkip_virtual_stream demoEnv 2 none demoParts 1 (fun _ => 4)
    [65, 65, 97, 98, 0, 65, 97] (by decide) (fun _ => (by decide : 1 ≤ 4))).2 2 7
    (by decide) (by decide)).1

/-- C2: over a store that keeps blobs immutable (what `put` returned is what
its reference fetches, then and after every later `put`), with a decoder that
inverts the serializer and documents of at least two parts, for every byte
sequence `source`, every chunk policy and every offset `off`, in particular
every `off < len(source)`, WriteFileMap returns a reference without error, the
blob of that reference is in the store, a reader opens on it, and seeking to
`off` (from the start, or from the current offset of the fresh reader) and
reading to the end with buffers of any positive lengths returns exactly
`source[off:]` with no error, whatever the reader would do on a referent that
ends early. The result is given by every fuel that is enough: a recursion fuel
above `len(source)` and more reads than bytes remain. -/
theorem WriteFileMap_roundtrip {σ : Type} (st : BlobStore σ) (cfg : WriterConfig) (store : σ)
    (name : Option Bytes) (source : Bytes) (off : Nat) (bufLen : Nat → Nat)
    (short : BytesPart → Nat → Nat → Except Error Bytes)
    (hst : st.Immutable)
    (hcodec : ∀ doc, cfg.decode (cfg.encode doc) = some doc)
    (hk : 2 ≤ cfg.maxParts)
    (hb : ∀ i, 1 ≤ bufLen i) :
    ∃ store2 ref fr,
      WriteFileMap st cfg store (NewFileMap name) source = some (.ok (store2, ref)) ∧
      (∃ blob, st.fetch store2 ref = .ok blob) ∧
      NewFileReader (st.env cfg.decode short store2) ref = .ok fr ∧
      fr.cursor = 0 ∧ fr.size = source.length ∧
      (∀ mode, mode ≠ SeekMode.fromEnd →
        (fr.Seek (Int.ofNat off) mode).1 = off ∧
        ∀ depth fuel, source.length + 1 ≤ depth → source.length - off < fuel →
          FileReader.ReadAll (st.env cfg.decode short store2) depth bufLen fuel 0
            (fr.Seek (Int.ofNat off) mode).2 = some (.ok (source.drop off))) := by
  obtain ⟨cs, hcs⟩ : ∃ cs, cs = chunkStream cfg.policy source.length source := ⟨_, rfl⟩
  have hflat : cs.flatten = source := by
    rw [hcs]
    exact chunkStream_flatten cfg.policy source.length source (le_refl _)
  obtain ⟨_, w3, w4⟩ := writeChunks_spec st hst cfg.decode short cs store
  rw [hflat] at w3
  obtain ⟨s2, ps, hbuilt, _, hsp⟩ := buildTree_spec st hst cfg hcodec short hk
    (writeChunks st store cs).2.length (writeChunks st store cs).1
    (writeChunks st store cs).2 1 source (le_refl _) w3
  obtain ⟨top, htop⟩ : ∃ top : superset,
      top = { NewFileMap name with Parts := ps, Size := sizeSum ps } := ⟨_, rfl⟩
  have hparts : top.Parts = ps := by rw [htop]
  have hval : top.validate = .ok top :=
    validate_of_spans _ _ top source (by rw [hparts]; exact hsp) (by rw [htop])
  have hput := BlobStore.put_le st hst cfg.decode short short s2 (cfg.encode top)
  have hlenps : source.length = sizeSum ps :=
    spans_length _ (partSpan_length _ _) ps source hsp
  have hchunks : (writeChunks st store cs).2.length ≤ source.length := by
    rw [w4, ← hflat, hcs]
    have key : ∀ fuel (rest : Bytes), (chunkStream cfg.policy fuel rest).length ≤
        (chunkStream cfg.policy fuel rest).flatten.length := by
      intro fuel
      induction fuel with
      | zero => intro rest; simp [chunkStream]
      | succ fuel ih =>
        intro rest
        simp only [chunkStream]
        by_cases hnil : rest = []
        · rw [if_pos hnil]
          simp
        · rw [if_neg hnil]
          have hpos : 0 < rest.length := List.length_pos.mpr hnil
          have hn := cfg.policy.next_pos rest
          have := ih (rest.drop (cfg.policy.next rest))
          simp only [List.length_cons, List.flatten_cons, List.length_append, List.length_take]
          omega
    exact key _ _
  have hdes : (st.env cfg.decode short (st.put s2 (cfg.encode top)).1).deserialize
      (cfg.encode top) = .ok top := by
    simp only [Env.deserialize, BlobStore.env, hcodec, hval]
  have hopen : NewFileReader (st.env cfg.decode short (st.put s2 (cfg.encode top)).1)
      (st.put s2 (cfg.encode top)).2 = .ok (readerAt top 0) :=
    NewFileReader_ok _ _ (cfg.encode top) top (hst.1 s2 _) hdes
  refine ⟨(st.put s2 (cfg.encode top)).1, (st.put s2 (cfg.encode top)).2, readerAt top 0, ?_,
    ⟨_, hst.1 s2 _⟩, hopen, rfl, ?_, ?_⟩
  · simp only [WriteFileMap, ← hcs, hbuilt, superset.PopulateParts, ← htop, hval]
  · simp only [readerAt, hparts, hlenps]
  · intro mode hmode
    rw [Seek_fresh top off mode hmode]
    refine ⟨rfl, ?_⟩
    intro depth fuel hdepth hfuel
    have hvs : virtualStream (st.env cfg.decode short (st.put s2 (cfg.encode top)).1) depth
        top = some source := by
      unfold virtualStream
      rw [hparts]
      exact spans_partSpan_mono _ _ hput _ depth (by omega) _ _ hsp
    exact ReadAll_spec _ depth bufLen hb top source hvs fuel 0 off hfuel

/-- C2 at a concrete input: five bytes written in chunks of two bytes under
documents of two parts, read back from offset 2. -/
theorem WriteFileMap_roundtrip_witness :
    ∃ store2 ref fr,
      WriteFileMap counterStore demoWriter [] (NewFileMap (some [116])) [1, 2, 3, 4, 5] =
        some (.ok (store2, ref)) ∧
      NewFileReader (counterStore.env demoWriter.decode (fun _ _ _ => .error Error.IOError)
        store2) ref = .ok fr ∧
      FileReader.ReadAll
          (counterStore.env demoWriter.decode (fun _ _ _ => .error Error.IOError) store2) 6
          (fun _ => 2) 4 0 (fr.Seek (Int.ofNat 2) SeekMode.fromStart).2 =
        some (.ok (List.drop 2 [1, 2, 3, 4, 5])) := by
  have hc : ∀ doc, demoWriter.decode (demoWriter.encode doc) = some doc := by
    intro doc
    simp only [demoWriter]
    exact idealDecode_encode doc
  have hk : 2 ≤ demoWriter.maxParts := Nat.le_refl 2
  obtain ⟨store2, ref, fr, h1, _, h3, _, _, h6⟩ :=
    WriteFileMap_roundtrip counterStore demoWriter [] (some [116]) [1, 2, 3, 4, 5] 2
      (fun _ => 2) (fun _ _ _ => .error Error.IOError) counterStore_immutable hc hk
      (fun _ => Nat.le_succ 1)
  have h7 := (h6 SeekMode.fromStart (by decide)).2 6 4 (by decide) (by decide)
  exact ⟨store2, ref, fr, h1, h3, h7⟩

end schema
